import Mathlib

/-!
Verification of the LabelScan detection / association / ordering pipeline.

Each section shallowly embeds one module of the Python backend:

* `Sorter`    — `backend/core/order_sorter.py` (`OrderSorter`): pixel
  coordinates are modelled as rationals, Python's stable `sorted` as
  `List.insertionSort` (a stable sort), and the imperative row-grouping
  walk of `sort_reading_order` as the structurally recursive `groupGo`.
* `Detector`  — `backend/core/barcode_detector.py`
  (`decode_with_enhancement`): the external pyzbar decoder runs are
  the inputs (one detection list per image variant); the merge loop
  over the eight variants is embedded exactly.
* `Assoc`     — `backend/core/association_analyzer.py`
  (`AssociationAnalyzer`): float arithmetic (including `math.sqrt`)
  is modelled over the reals, the `used_text_indices` set as a
  `Finset ℕ`, `enumerate` as `List.enum`.
* `Proc`      — `backend/core/processor.py` (`LabelProcessor
  .process_image`): the external engines (preprocessing, pyzbar, OCR,
  AI HTTP call) and the separately embedded association stage enter as
  `Except`-valued parameters; the branch structure of the big
  `try/except` body and the result envelope are embedded exactly.
-/

namespace LabelScan

namespace Sorter

/-- A bounding box `{x, y, width, height}` as the sorter reads it from an
object's `position` entry (`order_sorter.py`, `_get_y_center` /
`_get_x_center`). -/
structure Position where
  x : ℚ
  y : ℚ
  width : ℚ
  height : ℚ
deriving DecidableEq, Repr

/-- An object as the sorter sees it: a positioned record; `order` is the
1-based sequence number `add_order_numbers` writes (absent before), and
`otype`/`payload` stand for the type tag and the remaining data entries of
the Python dict, which the sorter never reads. -/
structure SObj where
  position : Position
  order : Option Nat
  otype : String
  payload : String
deriving DecidableEq, Repr

instance : Inhabited SObj := ⟨⟨⟨0, 0, 0, 0⟩, none, "", ""⟩⟩

/-- `_get_y_center`: `pos.y + pos.height / 2`. -/
def getYCenter (o : SObj) : ℚ := o.position.y + o.position.height / 2

/-- `_get_x_center`: `pos.x + pos.width / 2`. -/
def getXCenter (o : SObj) : ℚ := o.position.x + o.position.width / 2

/-- The ordering `sorted(key=k)` uses: compare the key values. -/
def keyLe (k : SObj → ℚ) (a b : SObj) : Prop := k a ≤ k b

instance (k : SObj → ℚ) : DecidableRel (keyLe k) :=
  fun a b => inferInstanceAs (Decidable (k a ≤ k b))

instance (k : SObj → ℚ) : IsTotal SObj (keyLe k) := ⟨fun a b => le_total (k a) (k b)⟩

instance (k : SObj → ℚ) : IsTrans SObj (keyLe k) := ⟨fun _ _ _ h h' => le_trans h h'⟩

/-- Comparison of the vertical sorts (`key=lambda obj: self._get_y_center(obj)`). -/
abbrev yle : SObj → SObj → Prop := keyLe getYCenter

/-- Comparison of the horizontal sorts (`key=lambda obj: self._get_x_center(obj)`). -/
abbrev xle : SObj → SObj → Prop := keyLe getXCenter

/-- `sort_top_to_bottom`: Python's `sorted` is a stable sort, embedded as
`List.insertionSort` (stable). -/
def sortTopToBottom (objects : List SObj) : List SObj := List.insertionSort yle objects

/-- `sort_left_to_right`. -/
def sortLeftToRight (objects : List SObj) : List SObj := List.insertionSort xle objects

/-- The row-accumulation loop of `sort_reading_order`: `cur` is
`current_row`, `anchor` is `current_y` (the y-center of the row's first
member; it is not updated when members join), and the final `rows.append
(current_row)` is the base case. -/
def groupGo (tol anchor : ℚ) (cur : List SObj) : List SObj → List (List SObj)
  | [] => [cur]
  | o :: rest =>
    if |getYCenter o - anchor| ≤ tol then groupGo tol anchor (cur ++ [o]) rest
    else cur :: groupGo tol (getYCenter o) [o] rest

/-- Row grouping of `sort_reading_order` over the y-sorted list: the first
object seeds the row and sets `current_y`. -/
def groupRows (tol : ℚ) : List SObj → List (List SObj)
  | [] => []
  | a :: rest => groupGo tol (getYCenter a) [a] rest

/-- `sort_reading_order`: y-sort, group into rows, x-sort each row,
concatenate. -/
def sortReadingOrder (tol : ℚ) (objects : List SObj) : List SObj :=
  if objects.isEmpty then []
  else ((groupRows tol (List.insertionSort yle objects)).map (List.insertionSort xle)).flatten

/-- `sort_grid_order` delegates to `sort_reading_order`. -/
def sortGridOrder (tol : ℚ) (objects : List SObj) : List SObj :=
  sortReadingOrder tol objects

/-- `OrderSorter.sort`, the dispatch entry point; `tol` is the sorter's
`row_tolerance`.  Any `order` other than the three named modes falls into
the final `else` (reading order). -/
def sort (tol : ℚ) (objects : List SObj) (order : String) : List SObj :=
  if objects.isEmpty then []
  else if order = "top_to_bottom" then sortTopToBottom objects
  else if order = "left_to_right" then sortLeftToRight objects
  else if order = "grid_order" then sortGridOrder tol objects
  else sortReadingOrder tol objects

/-- `add_order_numbers`: `obj["order"] = idx + 1` for each index. -/
def addOrderNumbers (objects : List SObj) : List SObj :=
  objects.mapIdx fun idx o => { o with order := some (idx + 1) }

/-- Example object with y-center 0 (and x-center 10). -/
def oy0 : SObj := ⟨⟨10, 0, 0, 0⟩, none, "text", "a"⟩

/-- Example object with y-center 25 (and x-center 0). -/
def oy25 : SObj := ⟨⟨0, 25, 0, 0⟩, none, "text", "b"⟩

/-- Example object with y-center 55 (and x-center 5). -/
def oy55 : SObj := ⟨⟨5, 55, 0, 0⟩, none, "text", "c"⟩

/-- Key-lexicographic order (x-center first, y-center breaking ties): the
order a finished reading-order row is arranged in. -/
def xyLex (a b : SObj) : Prop :=
  getXCenter a ≤ getXCenter b ∧ (getXCenter a = getXCenter b → getYCenter a ≤ getYCenter b)

/-- The least y-center of a block, read off as the head of its y-sort. -/
def anchY (B : List SObj) : ℚ := getYCenter (List.insertionSort yle B).headI

/-- A finished reading-order row: nonempty, (x, y)-lexicographically
arranged, and vertically within `tol` of its least y-center. -/
def RowOK (tol : ℚ) (B : List SObj) : Prop :=
  B ≠ [] ∧ B.Pairwise xyLex ∧ ∀ o ∈ B, getYCenter o ≤ anchY B + tol

/-- The shape `sort_reading_order` leaves its output in: a concatenation of
finished rows whose least y-centers are separated by more than `tol`. -/
def BlocksFix (tol : ℚ) (blocks : List (List SObj)) : Prop :=
  (∀ B ∈ blocks, RowOK tol B) ∧
    List.Chain' (fun B B' => anchY B + tol < anchY B') blocks

/-- The rows `sort_reading_order` produces, each x-sorted. -/
def readingBlocks (tol : ℚ) (objects : List SObj) : List (List SObj) :=
  (groupRows tol (List.insertionSort yle objects)).map (List.insertionSort xle)

end Sorter

namespace Detector

/-- `rect` of a decoded barcode: `{x, y, width, height}` in integer pixels. -/
structure BPos where
  x : ℤ
  y : ℤ
  width : ℤ
  height : ℤ
deriving DecidableEq, Repr

/-- One decoded barcode as `decode_barcodes` reports it (payload, symbology
tag, bounding box; the fixed confidence, decode time and polygon carry no
information for the merge). -/
structure BC where
  barcode_data : String
  barcode_type : String
  position : BPos
deriving DecidableEq, Repr

/-- `int(v / 1.5)` on an integer pixel coordinate: multiply by `2/3` and
truncate toward zero (exact for the magnitudes a pixel grid produces). -/
def pyDivByOnePointFive (n : ℤ) : ℤ := Int.tdiv (2 * n) 3

/-- Coordinate adjustment of the upscaled variant: each `position` field is
divided back by the 1.5 scale factor. -/
def rescaleBC (bc : BC) : BC :=
  { bc with
    position :=
      ⟨pyDivByOnePointFive bc.position.x, pyDivByOnePointFive bc.position.y,
        pyDivByOnePointFive bc.position.width, pyDivByOnePointFive bc.position.height⟩ }

/-- One `for bc in barcodes: if bc['barcode_data'] not in detected_data`
merge block of `decode_with_enhancement`; the state is the pair
`(all_barcodes, detected_data)`. -/
def mergeVariant : List BC → List BC × List String → List BC × List String
  | [], st => st
  | bc :: rest, (out, seen) =>
    if bc.barcode_data ∈ seen then mergeVariant rest (out, seen)
    else mergeVariant rest (out ++ [bc], bc.barcode_data :: seen)

/-- The eighth merge block (1.5× upscaled variant): a detection whose
payload is new has its coordinates divided back by 1.5 before it is
appended. -/
def mergeVariantUpscaled : List BC → List BC × List String → List BC × List String
  | [], st => st
  | bc :: rest, (out, seen) =>
    if bc.barcode_data ∈ seen then mergeVariantUpscaled rest (out, seen)
    else mergeVariantUpscaled rest (out ++ [rescaleBC bc], bc.barcode_data :: seen)

/-- `decode_with_enhancement`: the external decoder's result on each of the
eight image variants enters as `r1`–`r8` (original, equalized, CLAHE, Otsu,
inverted Otsu, sharpened, morphologically closed, 1.5× upscaled);
`height`/`width` are the grayscale image's dimensions.  The upscaled
variant is decoded and merged only when `max height width < 1500`. -/
def decodeWithEnhancement (r1 r2 r3 r4 r5 r6 r7 : List BC) (height width : ℕ)
    (r8 : List BC) : List BC :=
  let s1 := mergeVariant r1 ([], [])
  let s2 := mergeVariant r2 s1
  let s3 := mergeVariant r3 s2
  let s4 := mergeVariant r4 s3
  let s5 := mergeVariant r5 s4
  let s6 := mergeVariant r6 s5
  let s7 := mergeVariant r7 s6
  if max height width < 1500 then (mergeVariantUpscaled r8 s7).1 else s7.1

/-- The concatenation of every detection the eight variants contribute, in
variant order, upscaled detections already rescaled: the reference stream
against which the merged output is compared. -/
def allVariantDetections (r1 r2 r3 r4 r5 r6 r7 : List BC) (height width : ℕ)
    (r8 : List BC) : List BC :=
  r1 ++ r2 ++ r3 ++ r4 ++ r5 ++ r6 ++ r7 ++
    (if max height width < 1500 then r8.map rescaleBC else [])

/-- The spec's merge rule, stated independently for comparison: walk the
detection stream keeping the first detection of each payload ("maintain a
set of seen payload strings; append a detection whose payload is not yet in
the set"). -/
def dedupByPayload (seen : List String) : List BC → List BC
  | [] => []
  | bc :: rest =>
    if bc.barcode_data ∈ seen then dedupByPayload seen rest
    else bc :: dedupByPayload (bc.barcode_data :: seen) rest

end Detector

namespace Assoc

/-- A bounding box `{x, y, width, height}`; float pixel arithmetic is
modelled over the reals. -/
structure Pos where
  x : ℝ
  y : ℝ
  width : ℝ
  height : ℝ

/-- A barcode as the association analyzer reads it. -/
structure Barcode where
  barcode_data : String
  barcode_type : String
  position : Pos

/-- A recognized text fragment (`text_regions` entry). -/
structure TextRegion where
  text : String
  position : Pos
  confidence : ℝ

/-- The `relation_type` tag of a recorded association. -/
inductive RelType where
  | strong
  | weak
deriving DecidableEq, Repr

/-- One entry of a barcode's `related_text` list. -/
structure Entry where
  text : String
  position : Pos
  confidence : ℝ
  score : ℝ
  relation_type : RelType

/-- One element of the `results` list: a barcode with its associations. -/
structure AResult where
  barcode : Barcode
  related_text : List Entry
  has_association : Bool

/-- One element of the `independent_text` list (its `type` entry is the
constant string `"independent"`). -/
structure IndepText where
  text : String
  position : Pos

/-- The analyzer's configuration: radius multiplier, the four direction
weights, and the two thresholds. -/
structure Config where
  max_search_radius_multiplier : ℝ
  wRight : ℝ
  wBottom : ℝ
  wLeft : ℝ
  wTop : ℝ
  strong_threshold : ℝ
  weak_threshold : ℝ

/-- `_get_center`. -/
noncomputable def center (p : Pos) : ℝ × ℝ := (p.x + p.width / 2, p.y + p.height / 2)

/-- `_calculate_distance`: euclidean distance of the two centers. -/
noncomputable def distance (p1 p2 : Pos) : ℝ :=
  Real.sqrt (((center p1).1 - (center p2).1) ^ 2 + ((center p1).2 - (center p2).2) ^ 2)

/-- The four direction tags `_get_direction` can return. -/
inductive Dir where
  | right
  | bottom
  | left
  | top
deriving DecidableEq, Repr

/-- `_get_direction`: dominant axis of the barcode-center → text-center
vector. -/
noncomputable def getDirection (barcodePos textPos : Pos) : Dir :=
  if |(center textPos).1 - (center barcodePos).1| >
      |(center textPos).2 - (center barcodePos).2| then
    (if (center textPos).1 - (center barcodePos).1 > 0 then Dir.right else Dir.left)
  else
    (if (center textPos).2 - (center barcodePos).2 > 0 then Dir.bottom else Dir.top)

/-- `direction_weights` lookup (every direction key is present). -/
def Config.dirWeight (cfg : Config) : Dir → ℝ
  | Dir.right => cfg.wRight
  | Dir.bottom => cfg.wBottom
  | Dir.left => cfg.wLeft
  | Dir.top => cfg.wTop

/-- `_calculate_association_score`: 0 beyond the search radius, otherwise
the distance score scaled by the direction weight. -/
noncomputable def calcScore (cfg : Config) (b : Barcode) (t : TextRegion) : ℝ :=
  if distance b.position t.position >
      b.position.width * cfg.max_search_radius_multiplier then 0
  else
    (1 - distance b.position t.position /
        (b.position.width * cfg.max_search_radius_multiplier)) *
      cfg.dirWeight (getDirection b.position t.position)

/-- The entry recorded for a fragment whose score reaches the weak
threshold. -/
noncomputable def mkEntry (cfg : Config) (b : Barcode) (tr : TextRegion) : Entry :=
  ⟨tr.text, tr.position, tr.confidence, calcScore cfg b tr,
    if cfg.strong_threshold ≤ calcScore cfg b tr then RelType.strong else RelType.weak⟩

/-- The inner `for idx, text_region in enumerate(text_regions)` loop of
`associate_text_with_barcodes` for one barcode: indices already in
`used_text_indices` are skipped; a fragment scoring at least
`weak_threshold` is recorded, and one scoring also at least
`strong_threshold` is marked used. -/
noncomputable def scanTexts (cfg : Config) (b : Barcode) :
    List (ℕ × TextRegion) → Finset ℕ → List Entry × Finset ℕ
  | [], used => ([], used)
  | (idx, tr) :: rest, used =>
    if idx ∈ used then scanTexts cfg b rest used
    else if cfg.weak_threshold ≤ calcScore cfg b tr then
      (mkEntry cfg b tr ::
          (scanTexts cfg b rest
            (if cfg.strong_threshold ≤ calcScore cfg b tr then insert idx used else used)).1,
        (scanTexts cfg b rest
            (if cfg.strong_threshold ≤ calcScore cfg b tr then insert idx used else used)).2)
    else scanTexts cfg b rest used

/-- `associations.sort(key=lambda x: x["score"], reverse=True)`: a stable
sort by descending score. -/
def scoreGe (a b : Entry) : Prop := b.score ≤ a.score

noncomputable instance : DecidableRel scoreGe :=
  fun a b => inferInstanceAs (Decidable (b.score ≤ a.score))

noncomputable def sortByScoreDesc (es : List Entry) : List Entry :=
  List.insertionSort scoreGe es

/-- The outer `for barcode in barcodes` loop: each barcode scans the
fragments against the current used-index set and contributes one result. -/
noncomputable def assocLoop (cfg : Config) (pairs : List (ℕ × TextRegion)) :
    List Barcode → Finset ℕ → List AResult × Finset ℕ
  | [], used => ([], used)
  | b :: bs, used =>
    (⟨b, sortByScoreDesc (scanTexts cfg b pairs used).1,
        decide (0 < (scanTexts cfg b pairs used).1.length)⟩ ::
        (assocLoop cfg pairs bs (scanTexts cfg b pairs used).2).1,
      (assocLoop cfg pairs bs (scanTexts cfg b pairs used).2).2)

/-- `associate_text_with_barcodes`: the per-barcode results plus the
independent fragments (those whose index was never marked used). -/
noncomputable def associate (cfg : Config) (bs : List Barcode) (ts : List TextRegion) :
    List AResult × List IndepText :=
  ((assocLoop cfg ts.enum bs ∅).1,
    (ts.enum.filter fun q => decide (q.1 ∉ (assocLoop cfg ts.enum bs ∅).2)).map
      fun q => ⟨q.2.text, q.2.position⟩)

/-- A configuration whose weak threshold is 0 (the claimed radius-cutoff
exclusion is probed against it). -/
noncomputable def cfgZeroWeak : Config := ⟨1, 4 / 5, 3 / 5, 2 / 5, 3 / 10, 1 / 2, 0⟩

/-- The default configuration (`radiusMultiplier 2.0`, weights
`0.8/0.6/0.4/0.3`, thresholds `0.5/0.3`). -/
noncomputable def cfgDefault : Config := ⟨2, 4 / 5, 3 / 5, 2 / 5, 3 / 10, 1 / 2, 3 / 10⟩

/-- A barcode of width 1 with center `(1/2, 0)`. -/
noncomputable def bUnit : Barcode := ⟨"B1", "CODE128", ⟨0, 0, 1, 0⟩⟩

/-- A barcode of width 100 with center `(50, 25)`. -/
noncomputable def bWide : Barcode := ⟨"B2", "CODE128", ⟨0, 0, 100, 50⟩⟩

/-- A fragment with center `(5/2, 0)`: distance 2 from `bUnit`'s center. -/
noncomputable def tFar : TextRegion := ⟨"T-far", ⟨2, 0, 1, 0⟩, 1⟩

/-- A fragment with center `(7/2, 0)`: distance 3 from `bUnit`'s center. -/
noncomputable def tFarther : TextRegion := ⟨"T-far2", ⟨3, 0, 1, 0⟩, 1⟩

/-- A fragment with center `(140, 25)`: distance 90 from `bWide`'s center,
to its right. -/
noncomputable def tNear : TextRegion := ⟨"LOT-9", ⟨110, 15, 60, 20⟩, 1⟩

/-- The entry `associate cfgDefault [bWide] [tNear]` records: distance 90,
radius 200, distance score `11/20`, direction weight `4/5`, score `11/25`
(weak). -/
noncomputable def eNear : Entry := ⟨"LOT-9", ⟨110, 15, 60, 20⟩, 1, 11 / 25, RelType.weak⟩

end Assoc

namespace Proc

open Sorter

/-- The per-provider AI configuration the availability check reads;
a missing or empty `api_key` is falsy in Python, modelled as `""`. -/
structure Provider where
  enabled : Bool
  api_key : String

/-- The per-model AI configuration (only `provider_id` is read by the
availability check). -/
structure AIModel where
  provider_id : String

/-- The `AIRecognizer` state the orchestrator's availability check and
error-message chain read; `active_model_id = ""` models a missing or empty
(falsy) id. -/
structure AIState where
  enabled : Bool
  active_model_id : String
  models : List (String × AIModel)
  providers : List (String × Provider)

/-- `AIRecognizer.is_available`. -/
def isAvailable (st : AIState) : Bool :=
  if !st.enabled then false
  else if st.active_model_id = "" then false
  else
    match st.models.lookup st.active_model_id with
    | none => false
    | some m =>
      match st.providers.lookup m.provider_id with
      | none => false
      | some p => if !p.enabled then false else if p.api_key = "" then false else true

/-- The cause-chain error message `process_image` builds when the AI engine
is unavailable (first unmet precondition wins). -/
def aiUnavailableMsg (st : AIState) : String :=
  let base := "AI识别功能不可用,请检查配置:"
  if !st.enabled then base ++ " AI功能未启用"
  else if st.active_model_id = "" then base ++ " 未选择激活的模型"
  else
    match st.models.lookup st.active_model_id with
    | none => base ++ " 模型" ++ st.active_model_id ++ "不存在"
    | some m =>
      match st.providers.lookup m.provider_id with
      | none => base ++ " 提供商" ++ m.provider_id ++ "不存在"
      | some p =>
        if !p.enabled then base ++ " 提供商" ++ m.provider_id ++ "未启用"
        else if p.api_key = "" then base ++ " 提供商" ++ m.provider_id ++ "缺少API Key"
        else base

/-- What `recognize_full` returns (`full_text`, `text_regions`,
`structured_fields`); the regions are already in the sorter's object
shape, the parsed fields as one opaque value. -/
structure OcrRes where
  text_regions : List SObj
  structured_fields : String
  full_text : String

/-- A successful AI reply after `_format_result`: the recognized barcodes
and texts (already reshaped to positioned objects) plus the raw reply. -/
structure AiRes where
  barcodes : List SObj
  texts : List SObj
  raw : String

/-- The engines `process_image` drives, as outcome parameters: the image
preprocessing, the ensemble barcode detection, `recognize_full`, Tesseract
availability, the AI state and AI call, and the association stage (embedded
separately in `Assoc`; here only its outcome — the barcode-group objects
and the independent-text objects — matters, since `process_image` treats
it, like the engines, as a step whose exception would reach the outer
`except`). -/
structure Engines where
  preprocess : Except String Unit
  detect : Except String (List SObj)
  tesseract_available : Bool
  ocr : Except String OcrRes
  aiState : AIState
  aiRecognize : Except String AiRes
  assoc : Except String (List SObj × List SObj)

/-- What the `try` body of `process_image` produces when no exception is
raised: the ordered result list and the extra envelope entries some
branches add. -/
structure Payload where
  results : List SObj
  ai_raw_response : Option String
  structured_fields : Option String
  full_text : Option String

/-- The single result envelope every run returns. -/
structure Envelope where
  success : Bool
  mode_used : String
  recognition_mode : String
  sort_order : String
  results : List SObj
  process_time : ℕ
  error : Option String
  ai_raw_response : Option String
  structured_fields : Option String
  full_text : Option String

/-- The `try` body of `process_image`: the branch structure over
`recognition_mode` and `mode`, with every raising step an `Except`.
A `recognition_mode` outside the four recognized values leaves the initial
empty result list in place, as does a `barcode_and_ocr` run whose `mode` is
none of fast/balanced/full. -/
def processBody (e : Engines) (mode recognition_mode sort_order : String)
    (tol : ℚ) : Except String Payload := do
  let _ ← e.preprocess
  if recognition_mode = "ai" then
    if !isAvailable e.aiState then throw (aiUnavailableMsg e.aiState)
    let ai ← match e.aiRecognize with
      | Except.ok v => pure v
      | Except.error msg => throw ("AI识别失败: " ++ msg)
    let sorted := addOrderNumbers (sort tol (ai.barcodes ++ ai.texts) sort_order)
    pure ⟨sorted, some ai.raw, none, none⟩
  else if recognition_mode = "barcode_only" then
    let bcs ← e.detect
    let sorted := addOrderNumbers (sort tol bcs sort_order)
    pure ⟨sorted, none, none, none⟩
  else if recognition_mode = "ocr_only" then
    if !e.tesseract_available then throw "OCR功能不可用,请安装Tesseract OCR"
    let ocr ← e.ocr
    let sorted := addOrderNumbers (sort tol ocr.text_regions sort_order)
    pure ⟨sorted, none, some ocr.structured_fields,
      if mode = "full" then some ocr.full_text else none⟩
  else if recognition_mode = "barcode_and_ocr" then
    let bcs ← e.detect
    if mode = "fast" ∨ !e.tesseract_available then
      pure ⟨addOrderNumbers (sort tol bcs sort_order), none, none, none⟩
    else if mode = "balanced" then
      let ocr ← e.ocr
      let groups ← e.assoc
      let sorted := addOrderNumbers (sort tol (groups.1 ++ groups.2) sort_order)
      pure ⟨sorted, none, some ocr.structured_fields, none⟩
    else if mode = "full" then
      let ocr ← e.ocr
      let groups ← e.assoc
      let sorted := addOrderNumbers (sort tol (groups.1 ++ groups.2) sort_order)
      pure ⟨sorted, none, some ocr.structured_fields, some ocr.full_text⟩
    else
      pure ⟨[], none, none, none⟩
  else
    pure ⟨[], none, none, none⟩

/-- `process_image`: the `try/except` wrapper around the body.  Any raised
exception becomes `success = false` with the message as `error`; a normal
completion keeps `success = true` and `error = None`; the elapsed
processing time is stamped either way. -/
def processImage (e : Engines) (mode recognition_mode sort_order : String)
    (tol : ℚ) (elapsed : ℕ) : Envelope :=
  match processBody e mode recognition_mode sort_order tol with
  | Except.ok p =>
    ⟨true, mode, recognition_mode, sort_order, p.results, elapsed, none,
      p.ai_raw_response, p.structured_fields, p.full_text⟩
  | Except.error msg =>
    ⟨false, mode, recognition_mode, sort_order, [], elapsed, some msg, none, none, none⟩

end Proc

/-! ## Sorter: row grouping and permutation lemmas -/

namespace Sorter

theorem headI_append_of_ne_nil {cur l : List SObj} (h : cur ≠ []) :
    (cur ++ l).headI = cur.headI := by
  cases cur with
  | nil => exact absurd rfl h
  | cons a t => rfl

theorem tail_append_singleton_of_ne_nil {cur : List SObj} {o : SObj} (h : cur ≠ []) :
    (cur ++ [o]).tail = cur.tail ++ [o] := by
  cases cur with
  | nil => exact absurd rfl h
  | cons a t => rfl

theorem groupGo_flatten (tol : ℚ) (l : List SObj) :
    ∀ (cur : List SObj) (anchor : ℚ), (groupGo tol anchor cur l).flatten = cur ++ l := by
  induction l with
  | nil => intro cur anchor; simp [groupGo]
  | cons o rest ih =>
    intro cur anchor
    rw [groupGo]
    split
    · rw [ih]; simp
    · simp [List.flatten_cons, ih]

theorem groupRows_flatten (tol : ℚ) (l : List SObj) : (groupRows tol l).flatten = l := by
  cases l with
  | nil => rfl
  | cons a rest => simp [groupRows, groupGo_flatten]

theorem groupGo_ne_nil (tol : ℚ) (l : List SObj) :
    ∀ (cur : List SObj) (anchor : ℚ), groupGo tol anchor cur l ≠ [] := by
  induction l with
  | nil => intro cur anchor; simp [groupGo]
  | cons o rest ih =>
    intro cur anchor
    rw [groupGo]
    split
    · exact ih _ _
    · simp

theorem groupGo_headI_headI (tol : ℚ) (l : List SObj) :
    ∀ (cur : List SObj) (anchor : ℚ), cur ≠ [] →
      ((groupGo tol anchor cur l).headI).headI = cur.headI := by
  induction l with
  | nil => intro cur anchor _; simp [groupGo]
  | cons o rest ih =>
    intro cur anchor hc
    rw [groupGo]
    split
    · rw [ih (cur ++ [o]) anchor (by simp), headI_append_of_ne_nil hc]
    · rfl

/-- Soundness of one grouping walk: every produced row is nonempty, every
member that joined a row lies within `tol` of the y-center of the row's
first member (the fixed anchor), and each row's seed violated the previous
row's anchor. -/
theorem groupGo_spec (tol : ℚ) (l : List SObj) :
    ∀ (cur : List SObj) (anchor : ℚ), cur ≠ [] →
      anchor = getYCenter cur.headI →
      (∀ o ∈ cur.tail, |getYCenter o - anchor| ≤ tol) →
      (∀ row ∈ groupGo tol anchor cur l,
          row ≠ [] ∧ ∀ o ∈ row.tail, |getYCenter o - getYCenter row.headI| ≤ tol) ∧
        List.Chain' (fun r r' => tol < |getYCenter r'.headI - getYCenter r.headI|)
          (groupGo tol anchor cur l) := by
  induction l with
  | nil =>
    intro cur anchor hc ha htail
    subst ha
    refine ⟨?_, ?_⟩
    · intro row hrow
      rw [groupGo] at hrow
      rcases List.mem_singleton.mp hrow with rfl
      exact ⟨hc, htail⟩
    · rw [groupGo]
      exact List.chain'_singleton _
  | cons o rest ih =>
    intro cur anchor hc ha htail
    rw [groupGo]
    split
    case isTrue h =>
      refine ih (cur ++ [o]) anchor (by simp) ?_ ?_
      · rw [headI_append_of_ne_nil hc]; exact ha
      · intro x hx
        rw [tail_append_singleton_of_ne_nil hc] at hx
        rcases List.mem_append.mp hx with hx | hx
        · exact htail x hx
        · rcases List.mem_singleton.mp hx with rfl
          exact h
    case isFalse h =>
      have hrest := ih [o] (getYCenter o) (by simp) rfl (by simp)
      refine ⟨?_, ?_⟩
      · intro row hrow
        rcases List.mem_cons.mp hrow with rfl | hrow
        · exact ⟨hc, by rw [← ha]; exact htail⟩
        · exact hrest.1 row hrow
      · rw [List.chain'_cons']
        refine ⟨?_, hrest.2⟩
        intro b hb
        have hne := groupGo_ne_nil tol rest [o] (getYCenter o)
        have hheads : (groupGo tol (getYCenter o) [o] rest).headI.headI = o :=
          groupGo_headI_headI tol rest [o] (getYCenter o) (by simp)
        have hb' : b.headI = o := by
          cases hg : groupGo tol (getYCenter o) [o] rest with
          | nil => exact absurd hg hne
          | cons r rs =>
            rw [hg] at hb hheads
            simp only [List.head?_cons, Option.mem_def, Option.some.injEq] at hb
            rw [← hb]
            simpa using hheads
        rw [hb', ← ha]
        exact not_le.mp h

theorem flatten_map_insertionSort_perm (rows : List (List SObj)) :
    ((rows.map (List.insertionSort xle)).flatten).Perm rows.flatten := by
  induction rows with
  | nil => simp
  | cons r rs ih =>
    simp only [List.map_cons, List.flatten_cons]
    exact (List.perm_insertionSort xle r).append ih

theorem sortReadingOrder_perm (tol : ℚ) (objects : List SObj) :
    (sortReadingOrder tol objects).Perm objects := by
  unfold sortReadingOrder
  split
  case isTrue h =>
    rw [List.isEmpty_iff.mp h]
  case isFalse h =>
    refine (flatten_map_insertionSort_perm _).trans ?_
    rw [groupRows_flatten]
    exact List.perm_insertionSort yle objects

theorem sort_perm (tol : ℚ) (objects : List SObj) (order : String) :
    (sort tol objects order).Perm objects := by
  unfold sort
  split
  case isTrue h => rw [List.isEmpty_iff.mp h]
  case isFalse h =>
    split
    · exact List.perm_insertionSort yle objects
    split
    · exact List.perm_insertionSort xle objects
    split
    · exact sortReadingOrder_perm tol objects
    · exact sortReadingOrder_perm tol objects

end Sorter

/-! ## Sorter: stable-sort lemmas for key-based orders -/

namespace Sorter

variable {k : SObj → ℚ}

theorem orderedInsert_eq_cons {a : SObj} :
    ∀ {m : List SObj}, (∀ c ∈ m, k a ≤ k c) →
      List.orderedInsert (keyLe k) a m = a :: m
  | [], _ => rfl
  | c :: t, h => by
    simp only [List.orderedInsert]
    rw [if_pos (show keyLe k a c from h c (List.mem_cons_self c t))]

theorem orderedInsert_append_of_le {a : SObj} {l₂ : List SObj}
    (h : ∀ b ∈ l₂, k a ≤ k b) :
    ∀ l₁ : List SObj,
      List.orderedInsert (keyLe k) a (l₁ ++ l₂) = List.orderedInsert (keyLe k) a l₁ ++ l₂
  | [] => by
    cases l₂ with
    | nil => rfl
    | cons b t =>
      simp only [List.nil_append, List.orderedInsert, List.orderedInsert_nil]
      rw [if_pos (show keyLe k a b from h b (List.mem_cons_self b t))]
      rfl
  | c :: l₁ => by
    simp only [List.cons_append, List.orderedInsert, List.append_eq]
    by_cases hc : keyLe k a c
    · rw [if_pos hc, if_pos hc]
      rfl
    · rw [if_neg hc, if_neg hc, orderedInsert_append_of_le h l₁]
      rfl

theorem insertionSort_append_of_le :
    ∀ {l₁ l₂ : List SObj}, (∀ a ∈ l₁, ∀ b ∈ l₂, k a ≤ k b) →
      List.insertionSort (keyLe k) (l₁ ++ l₂) =
        List.insertionSort (keyLe k) l₁ ++ List.insertionSort (keyLe k) l₂ := by
  intro l₁
  induction l₁ with
  | nil => intro l₂ _; rfl
  | cons a l₁ ih =>
    intro l₂ h
    simp only [List.cons_append, List.insertionSort, List.append_eq]
    rw [ih fun x hx b hb => h x (List.mem_cons_of_mem a hx) b hb]
    rw [orderedInsert_append_of_le]
    intro b hb
    exact h a (List.mem_cons_self a l₁) b ((List.perm_insertionSort _ l₂).mem_iff.mp hb)

theorem filter_orderedInsert_pos (q : SObj → Bool) {a : SObj} (hq : q a = true) :
    ∀ {l : List SObj}, List.Sorted (keyLe k) l →
      (List.orderedInsert (keyLe k) a l).filter q =
        List.orderedInsert (keyLe k) a (l.filter q) := by
  intro l
  induction l with
  | nil => intro _; simp [hq]
  | cons b l ih =>
    intro hs
    simp only [List.orderedInsert]
    by_cases hr : keyLe k a b
    · rw [if_pos hr]
      by_cases hqb : q b
      · simp only [List.filter_cons, hq, hqb, if_true, ite_true, List.orderedInsert]
        rw [if_pos hr]
      · simp only [List.filter_cons, hq, hqb, if_true, ite_true, ite_false, if_false]
        rw [orderedInsert_eq_cons]
        intro c hc
        have hcl : c ∈ l := (List.mem_filter.mp hc).1
        exact le_trans hr (List.rel_of_sorted_cons hs c hcl)
    · rw [if_neg hr]
      by_cases hqb : q b
      · simp only [List.filter_cons, hqb, ite_true, List.orderedInsert]
        rw [if_neg hr, ih hs.of_cons]
      · simp only [List.filter_cons, hqb, ite_false]
        exact ih hs.of_cons

theorem filter_orderedInsert_neg (q : SObj → Bool) {a : SObj} (hq : q a = false) :
    ∀ l : List SObj,
      (List.orderedInsert (keyLe k) a l).filter q = l.filter q
  | [] => by simp [hq]
  | b :: l => by
    simp only [List.orderedInsert]
    by_cases hr : keyLe k a b
    · rw [if_pos hr]
      simp [List.filter_cons, hq]
    · rw [if_neg hr]
      simp only [List.filter_cons, filter_orderedInsert_neg q hq l]

theorem filter_insertionSort (q : SObj → Bool) :
    ∀ l : List SObj,
      (List.insertionSort (keyLe k) l).filter q =
        List.insertionSort (keyLe k) (l.filter q)
  | [] => rfl
  | a :: l => by
    simp only [List.insertionSort, List.filter_cons]
    by_cases hq : q a
    · rw [filter_orderedInsert_pos q hq (List.sorted_insertionSort _ l),
        filter_insertionSort q l, if_pos hq]
      rfl
    · rw [filter_orderedInsert_neg q (Bool.eq_false_iff.mpr hq) (List.insertionSort (keyLe k) l),
        filter_insertionSort q l, if_neg hq]

theorem eq_of_sorted_of_filter_eq :
    ∀ (l₁ l₂ : List SObj), List.Sorted (keyLe k) l₁ → List.Sorted (keyLe k) l₂ →
      (∀ v : ℚ,
        l₁.filter (fun o => decide (k o = v)) = l₂.filter (fun o => decide (k o = v))) →
      l₁ = l₂ := by
  intro l₁
  induction l₁ with
  | nil =>
    intro l₂ _ _ hf
    cases l₂ with
    | nil => rfl
    | cons b t₂ =>
      have := hf (k b)
      rw [List.filter_nil, List.filter_cons] at this
      simp at this
  | cons a t₁ ih =>
    intro l₂ hs₁ hs₂ hf
    cases l₂ with
    | nil =>
      have := hf (k a)
      rw [List.filter_nil, List.filter_cons] at this
      simp at this
    | cons b t₂ =>
      have hkey : k b = k a := by
        by_contra hne
        have h₁ := hf (k a)
        rw [List.filter_cons, List.filter_cons] at h₁
        simp only [decide_eq_true_eq, if_pos rfl, hne, ite_false, if_false] at h₁
        have hamem : a ∈ t₂ := by
          have : a ∈ List.filter (fun o => decide (k o = k a)) t₂ := by
            rw [← h₁]; exact List.mem_cons_self _ _
          exact (List.mem_filter.mp this).1
        have hba : k b ≤ k a := List.rel_of_sorted_cons hs₂ a hamem
        have h₂ := hf (k b)
        rw [List.filter_cons, List.filter_cons] at h₂
        have hne' : k a ≠ k b := fun h => hne h.symm
        simp only [decide_eq_true_eq, if_pos rfl, hne', ite_false, if_false] at h₂
        have hbmem : b ∈ t₁ := by
          have : b ∈ List.filter (fun o => decide (k o = k b)) t₁ := by
            rw [h₂]; exact List.mem_cons_self _ _
          exact (List.mem_filter.mp this).1
        have hab : k a ≤ k b := List.rel_of_sorted_cons hs₁ b hbmem
        exact hne (le_antisymm hba hab)
      have h₁ := hf (k a)
      rw [List.filter_cons, List.filter_cons] at h₁
      simp only [decide_eq_true_eq, if_pos rfl, hkey, ite_true, if_true] at h₁
      have hhead : a = b := (List.cons.injEq _ _ _ _ ▸ h₁).1
      have htails : t₁ = t₂ := by
        refine ih t₂ hs₁.of_cons hs₂.of_cons ?_
        intro v
        by_cases hv : v = k a
        · subst hv
          exact (List.cons.injEq _ _ _ _ ▸ h₁).2
        · have h₂ := hf v
          rw [List.filter_cons, List.filter_cons] at h₂
          have hna : ¬ k a = v := fun h => hv h.symm
          have hnb : ¬ k b = v := by rw [hkey]; exact hna
          simpa only [hna, hnb, decide_eq_true_eq, ite_false, if_false] using h₂
      rw [hhead, htails]

theorem headI_mem_of_ne_nil : ∀ {l : List SObj}, l ≠ [] → l.headI ∈ l
  | [], h => absurd rfl h
  | _ :: _, _ => List.mem_cons_self _ _

theorem anchY_le {B : List SObj} : ∀ o ∈ B, anchY B ≤ getYCenter o := by
  intro o ho
  have hmem : o ∈ List.insertionSort yle B := (List.perm_insertionSort yle B).mem_iff.mpr ho
  have hs := List.sorted_insertionSort yle B
  unfold anchY
  cases hsort : List.insertionSort yle B with
  | nil => rw [hsort] at hmem; cases hmem
  | cons h t =>
    rw [hsort] at hmem hs
    simp only [List.headI_cons]
    rcases List.mem_cons.mp hmem with rfl | hmem
    · exact le_refl _
    · exact List.rel_of_sorted_cons hs o hmem

theorem insertionSort_ne_nil {r : SObj → SObj → Prop} [DecidableRel r] {B : List SObj}
    (h : B ≠ []) : List.insertionSort r B ≠ [] := by
  intro h0
  apply h
  have := List.length_insertionSort r B
  rw [h0] at this
  exact List.eq_nil_of_length_eq_zero this.symm

theorem anchY_mem {B : List SObj} (h : B ≠ []) : ∃ o ∈ B, getYCenter o = anchY B := by
  refine ⟨(List.insertionSort yle B).headI, ?_, rfl⟩
  exact (List.perm_insertionSort yle B).mem_iff.mp
    (headI_mem_of_ne_nil (insertionSort_ne_nil h))

theorem anchY_perm {B B' : List SObj} (h : B.Perm B') : anchY B = anchY B' := by
  rcases eq_or_ne B [] with rfl | hne
  · rw [h.nil_eq]
  · have hne' : B' ≠ [] := fun h0 => hne (by rw [h0] at h; exact h.eq_nil)
    obtain ⟨o, ho, heq⟩ := anchY_mem hne
    obtain ⟨o', ho', heq'⟩ := anchY_mem hne'
    have h1 : anchY B' ≤ getYCenter o := anchY_le o (h.mem_iff.mp ho)
    have h2 : anchY B ≤ getYCenter o' := anchY_le o' (h.mem_iff.mpr ho')
    rw [heq] at h1
    rw [heq'] at h2
    exact le_antisymm h2 h1

theorem anchY_of_sorted {B : List SObj} (hs : List.Sorted yle B) :
    anchY B = getYCenter B.headI := by
  unfold anchY
  rw [hs.insertionSort_eq]

theorem pairwise_of_forall_mem {R : SObj → SObj → Prop} :
    ∀ {l : List SObj}, (∀ a ∈ l, ∀ b ∈ l, R a b) → l.Pairwise R
  | [], _ => List.Pairwise.nil
  | a :: l, h =>
    List.Pairwise.cons (fun b hb => h a (List.mem_cons_self a l) b (List.mem_cons_of_mem a hb))
      (pairwise_of_forall_mem fun x hx y hy =>
        h x (List.mem_cons_of_mem a hx) y (List.mem_cons_of_mem a hy))

theorem pairwise_xyLex_of_sorted_filter :
    ∀ {M : List SObj}, List.Sorted xle M →
      (∀ v : ℚ, (M.filter fun o => decide (getXCenter o = v)).Pairwise yle) →
      M.Pairwise xyLex := by
  intro M
  induction M with
  | nil => intro _ _; exact List.Pairwise.nil
  | cons a M ih =>
    intro hx hv
    refine List.Pairwise.cons ?_ (ih hx.of_cons ?_)
    · intro b hb
      refine ⟨List.rel_of_sorted_cons hx b hb, fun hxab => ?_⟩
      have h1 := hv (getXCenter a)
      rw [List.filter_cons] at h1
      simp only [decide_eq_true_eq, if_pos rfl, ite_true] at h1
      have hbmem : b ∈ M.filter fun o => decide (getXCenter o = getXCenter a) :=
        List.mem_filter.mpr ⟨hb, by simp [hxab.symm]⟩
      exact (List.pairwise_cons.mp h1).1 b hbmem
    · intro v
      have h1 := hv v
      rw [List.filter_cons] at h1
      by_cases hva : getXCenter a = v
      · simp only [hva, decide_eq_true_eq, ite_true, if_pos] at h1
        exact h1.of_cons
      · simpa only [hva, decide_eq_true_eq, ite_false, if_false] using h1

theorem insertionSort_flatten_of_sep {k : SObj → ℚ} :
    ∀ blocks : List (List SObj),
      List.Pairwise (fun B B' => ∀ a ∈ B, ∀ b ∈ B', k a ≤ k b) blocks →
      List.insertionSort (keyLe k) blocks.flatten =
        (blocks.map (List.insertionSort (keyLe k))).flatten := by
  intro blocks
  induction blocks with
  | nil => intro _; rfl
  | cons B bs ih =>
    intro hp
    simp only [List.flatten_cons, List.map_cons]
    rw [insertionSort_append_of_le, ih hp.of_cons]
    intro a ha b hb
    rcases List.mem_flatten.mp hb with ⟨B', hB', hbB'⟩
    exact (List.pairwise_cons.mp hp).1 B' hB' a ha b hbB'

theorem groupGo_extend (tol anchor : ℚ) :
    ∀ (S l cur : List SObj), (∀ o ∈ S, |getYCenter o - anchor| ≤ tol) →
      groupGo tol anchor cur (S ++ l) = groupGo tol anchor (cur ++ S) l
  | [], l, cur, _ => by simp
  | o :: S, l, cur, h => by
    simp only [List.cons_append, groupGo, List.append_eq]
    rw [if_pos (h o (List.mem_cons_self o S)),
      groupGo_extend tol anchor S l (cur ++ [o])
        fun x hx => h x (List.mem_cons_of_mem o hx)]
    rw [List.append_assoc]
    rfl

/-- The grouping walk over a y-sorted input: every row is nonempty,
y-sorted, has all its members within `tol` above its first member's
y-center, and the rows' least y-centers are separated by more than `tol`. -/
theorem groupGo_spec_sorted (tol : ℚ) (htol : 0 ≤ tol) :
    ∀ (l cur : List SObj) (anchor : ℚ), cur ≠ [] →
      anchor = getYCenter cur.headI →
      (∀ o ∈ cur, getYCenter o ≤ anchor + tol) →
      List.Sorted yle (cur ++ l) →
      (∀ row ∈ groupGo tol anchor cur l,
          row ≠ [] ∧ List.Sorted yle row ∧
            ∀ o ∈ row, getYCenter o ≤ getYCenter row.headI + tol) ∧
        List.Chain' (fun r r' => anchY r + tol < anchY r') (groupGo tol anchor cur l) := by
  intro l
  induction l with
  | nil =>
    intro cur anchor hc ha hwin hsort
    rw [groupGo]
    subst ha
    refine ⟨?_, List.chain'_singleton _⟩
    intro row hrow
    rcases List.mem_singleton.mp hrow with rfl
    exact ⟨hc, by simpa using hsort, hwin⟩
  | cons o rest ih =>
    intro cur anchor hc ha hwin hsort
    rw [groupGo]
    split
    case isTrue h =>
      refine ih (cur ++ [o]) anchor (by simp) ?_ ?_ ?_
      · rw [headI_append_of_ne_nil hc]; exact ha
      · intro x hx
        rcases List.mem_append.mp hx with hx | hx
        · exact hwin x hx
        · rcases List.mem_singleton.mp hx with rfl
          linarith [(abs_le.mp h).2]
      · rw [List.append_assoc]
        simpa using hsort
    case isFalse h =>
      have hcross := (List.pairwise_append.mp hsort).2.2
      have hrestSorted : List.Sorted yle (o :: rest) := (List.pairwise_append.mp hsort).2.1
      have hrest := ih [o] (getYCenter o) (by simp) rfl
        (by intro x hx; rcases List.mem_singleton.mp hx with rfl; linarith)
        (by simpa using hrestSorted)
      have hcursorted : List.Sorted yle cur := (List.pairwise_append.mp hsort).1
      refine ⟨?_, ?_⟩
      · intro row hrow
        rcases List.mem_cons.mp hrow with rfl | hrow
        · exact ⟨hc, hcursorted, by rw [← ha]; exact hwin⟩
        · exact hrest.1 row hrow
      · rw [List.chain'_cons']
        refine ⟨?_, hrest.2⟩
        intro b hb
        have hbmem : b ∈ groupGo tol (getYCenter o) [o] rest := List.mem_of_mem_head? hb
        have hbprops := hrest.1 b hbmem
        have hbhead : b.headI = o := by
          have hne := groupGo_ne_nil tol rest [o] (getYCenter o)
          have hheads : (groupGo tol (getYCenter o) [o] rest).headI.headI = o :=
            groupGo_headI_headI tol rest [o] (getYCenter o) (by simp)
          cases hg : groupGo tol (getYCenter o) [o] rest with
          | nil => exact absurd hg hne
          | cons r rs =>
            rw [hg] at hb hheads
            simp only [List.head?_cons, Option.mem_def, Option.some.injEq] at hb
            rw [← hb]
            simpa using hheads
        have hanchb : anchY b = getYCenter o := by
          rw [anchY_of_sorted hbprops.2.1, hbhead]
        have hanchcur : anchY cur = anchor := by
          rw [anchY_of_sorted hcursorted, ← ha]
        have hoge : anchor ≤ getYCenter o := by
          rw [ha]
          exact hcross cur.headI (headI_mem_of_ne_nil hc) o (List.mem_cons_self o rest)
        have habs : tol < getYCenter o - anchor := by
          have := not_le.mp h
          rwa [abs_of_nonneg (by linarith)] at this
        rw [hanchb, hanchcur]
        linarith

/-- Regrouping a concatenation of y-sorted, within-tolerance, separated
blocks yields exactly those blocks back. -/
theorem groupRows_flatten_of_blocks (tol : ℚ) (htol : 0 ≤ tol) :
    ∀ Cs : List (List SObj),
      (∀ C ∈ Cs, C ≠ [] ∧ List.Sorted yle C ∧
        ∀ o ∈ C, getYCenter o ≤ getYCenter C.headI + tol) →
      List.Chain' (fun C C' => getYCenter C.headI + tol < getYCenter C'.headI) Cs →
      groupRows tol Cs.flatten = Cs := by
  intro Cs
  induction Cs with
  | nil => intro _ _; rfl
  | cons C Ds ih =>
    intro hprops hchain
    obtain ⟨hCne, hCsort, hCwin⟩ := hprops C (List.mem_cons_self _ _)
    cases C with
    | nil => exact absurd rfl hCne
    | cons c C' =>
      simp only [List.flatten_cons, List.cons_append]
      have hstep : groupRows tol (c :: (C' ++ Ds.flatten)) =
          groupGo tol (getYCenter c) [c] (C' ++ Ds.flatten) := rfl
      have habs : ∀ o ∈ C', |getYCenter o - getYCenter c| ≤ tol := by
        intro o ho
        have h1 : getYCenter c ≤ getYCenter o := List.rel_of_sorted_cons hCsort o ho
        have h2 : getYCenter o ≤ getYCenter c + tol := by
          have := hCwin o (List.mem_cons_of_mem c ho)
          simpa using this
        rw [abs_le]
        constructor <;> linarith
      rw [hstep, groupGo_extend tol (getYCenter c) C' Ds.flatten [c] habs]
      show groupGo tol (getYCenter c) (c :: C') Ds.flatten = (c :: C') :: Ds
      cases Ds with
      | nil => simp [groupGo]
      | cons D Ds' =>
        obtain ⟨hDne, hDsort, hDwin⟩ := hprops D (List.mem_cons_of_mem _ (List.mem_cons_self _ _))
        cases D with
        | nil => exact absurd rfl hDne
        | cons d D' =>
          have hflat : ((d :: D') :: Ds').flatten = d :: (D' ++ Ds'.flatten) := by
            simp [List.flatten_cons]
          rw [hflat]
          have hgap : getYCenter (c :: C').headI + tol < getYCenter (d :: D').headI :=
            (List.chain'_cons'.mp hchain).1 (d :: D') (by simp)
          simp only [List.headI_cons] at hgap
          have hcond : ¬|getYCenter d - getYCenter c| ≤ tol := by
            rw [abs_of_nonneg (by linarith)]
            intro hle
            linarith
          rw [groupGo]
          rw [if_neg hcond]
          have hrec : groupGo tol (getYCenter d) [d] (D' ++ Ds'.flatten) =
              groupRows tol ((d :: D') :: Ds').flatten := by
            rw [hflat]
            rfl
          rw [hrec, ih (fun X hX => hprops X (List.mem_cons_of_mem _ hX))
            (List.chain'_cons'.mp hchain).2]

/-- Undoing one row: the x-sort of the y-sort of an (x, y)-lexicographically
arranged block is the block itself (both stable sorts only permute within
equal keys, and the lexicographic arrangement pins those ties). -/
theorem sortX_sortY_eq {B : List SObj} (hlex : B.Pairwise xyLex) :
    List.insertionSort xle (List.insertionSort yle B) = B := by
  have hxB : List.Sorted xle B := hlex.imp fun h => h.1
  apply eq_of_sorted_of_filter_eq (k := getXCenter)
  · exact List.sorted_insertionSort xle _
  · exact hxB
  · intro v
    have hySortedFilter : List.Sorted yle
        (B.filter fun o => decide (getXCenter o = v)) := by
      have hpf : (B.filter fun o => decide (getXCenter o = v)).Pairwise xyLex :=
        hlex.filter _
      refine hpf.imp_of_mem ?_
      intro a b ha hb hab
      have hva : getXCenter a = v := by simpa using (List.mem_filter.mp ha).2
      have hvb : getXCenter b = v := by simpa using (List.mem_filter.mp hb).2
      exact hab.2 (hva.trans hvb.symm)
    rw [filter_insertionSort (k := getXCenter), filter_insertionSort (k := getYCenter),
      hySortedFilter.insertionSort_eq]
    have hxFilter : List.Sorted xle (B.filter fun o => decide (getXCenter o = v)) :=
      hxB.filter _
    rw [hxFilter.insertionSort_eq]

/-- Pass one establishes the fixpoint shape: the x-sorted rows of
`sort_reading_order` satisfy `BlocksFix`. -/
theorem readingBlocks_fix (tol : ℚ) (htol : 0 ≤ tol) (objects : List SObj) :
    BlocksFix tol (readingBlocks tol objects) := by
  unfold readingBlocks BlocksFix
  cases hY : List.insertionSort yle objects with
  | nil =>
    simp only [groupRows]
    constructor
    · intro B hB
      simp at hB
    · simp
  | cons a rest =>
    have hsorted : List.Sorted yle (a :: rest) := by
      rw [← hY]; exact List.sorted_insertionSort yle objects
    have hspec := groupGo_spec_sorted tol htol rest [a] (getYCenter a) (by simp) rfl
      (by intro o ho; rcases List.mem_singleton.mp ho with rfl; linarith)
      (by simpa using hsorted)
    have hrows : groupRows tol (a :: rest) = groupGo tol (getYCenter a) [a] rest := rfl
    constructor
    · intro B hB
      rw [hrows] at hB
      rcases List.mem_map.mp hB with ⟨row, hrow, rfl⟩
      obtain ⟨hne, hsort, hwin⟩ := hspec.1 row hrow
      have hperm := List.perm_insertionSort xle row
      refine ⟨insertionSort_ne_nil hne, ?_, ?_⟩
      · apply pairwise_xyLex_of_sorted_filter (List.sorted_insertionSort xle row)
        intro v
        rw [filter_insertionSort (k := getXCenter)]
        have hallx : List.Sorted xle (row.filter fun o => decide (getXCenter o = v)) := by
          apply pairwise_of_forall_mem
          intro x hx y hy
          have hvx : getXCenter x = v := by simpa using (List.mem_filter.mp hx).2
          have hvy : getXCenter y = v := by simpa using (List.mem_filter.mp hy).2
          exact le_of_eq (hvx.trans hvy.symm)
        rw [hallx.insertionSort_eq]
        exact hsort.filter _
      · intro o ho
        have ho' : o ∈ row := hperm.mem_iff.mp ho
        have := hwin o ho'
        rw [anchY_perm hperm, anchY_of_sorted hsort]
        exact this
    · rw [hrows, List.chain'_map]
      refine hspec.2.imp ?_
      intro r r' hr
      rw [anchY_perm (List.perm_insertionSort xle r),
        anchY_perm (List.perm_insertionSort xle r')]
      exact hr

theorem sortReadingOrder_eq_flatten (tol : ℚ) (objects : List SObj) :
    sortReadingOrder tol objects = (readingBlocks tol objects).flatten := by
  unfold sortReadingOrder readingBlocks
  split
  case isTrue h =>
    rw [List.isEmpty_iff.mp h]
    rfl
  case isFalse h => rfl

/-- Reading order is the identity on a list already in the fixpoint shape. -/
theorem sortReadingOrder_flatten_fix (tol : ℚ) (htol : 0 ≤ tol)
    {blocks : List (List SObj)} (hfix : BlocksFix tol blocks) :
    sortReadingOrder tol blocks.flatten = blocks.flatten := by
  obtain ⟨hrows, hchain⟩ := hfix
  unfold sortReadingOrder
  split
  case isTrue h => exact (List.isEmpty_iff.mp h).symm
  case isFalse h =>
    have hpair : List.Pairwise (fun B B' => anchY B + tol < anchY B') blocks := by
      haveI : IsTrans (List SObj) (fun B B' => anchY B + tol < anchY B') :=
        ⟨fun a b c hab hbc => by linarith⟩
      exact List.chain'_iff_pairwise.mp hchain
    have hsep : List.Pairwise
        (fun B B' => ∀ a ∈ B, ∀ b ∈ B', getYCenter a ≤ getYCenter b) blocks := by
      refine hpair.imp_of_mem ?_
      intro B B' hB hB' hlt a ha b hb
      have h1 : getYCenter a ≤ anchY B + tol := (hrows B hB).2.2 a ha
      have h2 : anchY B' ≤ getYCenter b := anchY_le b hb
      linarith
    rw [insertionSort_flatten_of_sep blocks hsep]
    have hprops : ∀ C ∈ blocks.map (List.insertionSort yle), C ≠ [] ∧
        List.Sorted yle C ∧ ∀ o ∈ C, getYCenter o ≤ getYCenter C.headI + tol := by
      intro C hC
      rcases List.mem_map.mp hC with ⟨B, hB, rfl⟩
      obtain ⟨hne, _, hwin⟩ := hrows B hB
      refine ⟨insertionSort_ne_nil hne, List.sorted_insertionSort yle B, ?_⟩
      intro o ho
      have ho' : o ∈ B := (List.perm_insertionSort yle B).mem_iff.mp ho
      exact hwin o ho'
    have hchain' : List.Chain'
        (fun C C' => getYCenter C.headI + tol < getYCenter C'.headI)
        (blocks.map (List.insertionSort yle)) := by
      rw [List.chain'_map]
      exact hchain
    rw [groupRows_flatten_of_blocks tol htol _ hprops hchain', List.map_map]
    have hid : ∀ B ∈ blocks, (List.insertionSort xle ∘ List.insertionSort yle) B = id B :=
      fun B hB => sortX_sortY_eq (hrows B hB).2.1
    rw [List.map_congr_left hid, List.map_id]

theorem groupGo_of_neg (tol : ℚ) (htol : tol < 0) :
    ∀ (l cur : List SObj) (anchor : ℚ),
      groupGo tol anchor cur l = cur :: l.map fun o => [o]
  | [], cur, anchor => by simp [groupGo]
  | o :: rest, cur, anchor => by
    rw [groupGo, if_neg (fun hle => absurd (le_trans (abs_nonneg _) hle) (not_le.mpr htol)),
      groupGo_of_neg tol htol rest [o] (getYCenter o)]
    rfl

theorem flatten_map_singleton : ∀ l : List SObj, (l.map fun o => [o]).flatten = l
  | [] => rfl
  | o :: l => by simp [flatten_map_singleton l]

/-- With a negative tolerance every object is its own row, so reading order
degenerates to the plain y-sort. -/
theorem sortReadingOrder_of_neg (tol : ℚ) (htol : tol < 0) (objects : List SObj) :
    sortReadingOrder tol objects = List.insertionSort yle objects := by
  unfold sortReadingOrder
  split
  case isTrue h => rw [List.isEmpty_iff.mp h]; rfl
  case isFalse h =>
    cases hY : List.insertionSort yle objects with
    | nil => simp [groupRows]
    | cons a rest =>
      have hrw : groupRows tol (a :: rest) = groupGo tol (getYCenter a) [a] rest := rfl
      rw [hrw, groupGo_of_neg tol htol rest [a] (getYCenter a)]
      simp only [List.map_cons, List.map_map, List.flatten_cons]
      have h1 : List.insertionSort xle [a] = [a] := rfl
      have h2 : (List.insertionSort xle ∘ fun o : SObj => [o]) = fun o : SObj => [o] := by
        funext o
        rfl
      rw [h1, h2, flatten_map_singleton]
      rfl

/-- Reading-order sorting is idempotent. -/
theorem sortReadingOrder_idem (tol : ℚ) (objects : List SObj) :
    sortReadingOrder tol (sortReadingOrder tol objects) = sortReadingOrder tol objects := by
  rcases le_or_lt 0 tol with htol | htol
  · rw [sortReadingOrder_eq_flatten tol objects]
    exact sortReadingOrder_flatten_fix tol htol (readingBlocks_fix tol htol objects)
  · rw [sortReadingOrder_of_neg tol htol objects, sortReadingOrder_of_neg tol htol _]
    exact (List.sorted_insertionSort yle objects).insertionSort_eq

theorem sortTopToBottom_idem (objects : List SObj) :
    sortTopToBottom (sortTopToBottom objects) = sortTopToBottom objects :=
  (List.sorted_insertionSort yle objects).insertionSort_eq

theorem sortLeftToRight_idem (objects : List SObj) :
    sortLeftToRight (sortLeftToRight objects) = sortLeftToRight objects :=
  (List.sorted_insertionSort xle objects).insertionSort_eq

theorem sort_isEmpty (tol : ℚ) (objects : List SObj) (order : String) :
    (sort tol objects order).isEmpty = objects.isEmpty := by
  have hl := (sort_perm tol objects order).length_eq
  cases h : objects.isEmpty with
  | true =>
    rw [List.isEmpty_iff.mp h] at hl ⊢
    simp only [List.length_nil] at hl
    rw [List.isEmpty_iff]
    exact List.eq_nil_of_length_eq_zero hl
  | false =>
    rw [Bool.eq_false_iff]
    intro h0
    rw [List.isEmpty_iff.mp h0] at hl
    simp only [List.length_nil] at hl
    rw [Bool.eq_false_iff] at h
    exact h (by rw [List.isEmpty_iff]; exact (List.eq_nil_of_length_eq_zero hl.symm))

end Sorter

/-! ## Claims C4, C5, C9, C10 -/

open Sorter in
/-- C4: in reading-order sorting the row's reference y-coordinate is the
vertical center of the row's first (seed) member and never drifts: every
member that joined a row is within `rowTolerance` of that fixed anchor, and
each new row's seed violated the previous anchor.  In particular objects at
y-centers `[0, 25, 55]` with tolerance 30 group as `[0, 25]` then `[55]`
(so reading order sorts the first row by x across both members). -/
theorem C4_reading_order_row_anchor_fixed :
    (∀ (tol : ℚ) (l : List SObj), ∀ row ∈ groupRows tol l,
        row ≠ [] ∧ ∀ o ∈ row.tail, |getYCenter o - getYCenter row.headI| ≤ tol) ∧
      (∀ (tol : ℚ) (l : List SObj),
        List.Chain' (fun r r' => tol < |getYCenter r'.headI - getYCenter r.headI|)
          (groupRows tol l)) ∧
      groupRows 30 [oy0, oy25, oy55] = [[oy0, oy25], [oy55]] ∧
      sortReadingOrder 30 [oy0, oy25, oy55] = [oy25, oy0, oy55] := by
  refine ⟨?_, ?_, ?_, ?_⟩
  case refine_3 =>
    norm_num [groupRows, groupGo, getYCenter, oy0, oy25, oy55]
  case refine_4 =>
    norm_num [sortReadingOrder, groupRows, groupGo, getYCenter, getXCenter, keyLe,
      oy0, oy25, oy55, List.insertionSort, List.orderedInsert]
  · intro tol l row hrow
    cases l with
    | nil => simp [groupRows] at hrow
    | cons a rest =>
      exact (groupGo_spec tol rest [a] (getYCenter a) (by simp) rfl (by simp)).1 row hrow
  · intro tol l
    cases l with
    | nil => simp [groupRows]
    | cons a rest =>
      exact (groupGo_spec tol rest [a] (getYCenter a) (by simp) rfl (by simp)).2

open Sorter in
/-- C5: `add_order_numbers` on a list of length `N` writes the order values
`1, …, N` in list position order (so they are exactly `{1, …, N}`, each
occurring once). -/
theorem C5_add_order_numbers_permutation (objects : List SObj) :
    (addOrderNumbers objects).map SObj.order = (List.range' 1 objects.length).map some := by
  apply List.ext_getElem
  · simp [addOrderNumbers]
  · intro n h1 h2
    simp only [addOrderNumbers, List.getElem_map, List.getElem_mapIdx, List.getElem_range']
    simp [Nat.add_comm]

open Sorter in
/-- C9: any `order` string other than `top_to_bottom`, `left_to_right` and
`grid_order` (not only `reading_order`) silently selects reading-order
sorting — the dispatcher's final `else` branch. -/
theorem C9_unrecognized_order_falls_back_to_reading_order
    (tol : ℚ) (objects : List SObj) (order : String)
    (h1 : order ≠ "top_to_bottom") (h2 : order ≠ "left_to_right")
    (h3 : order ≠ "grid_order") :
    sort tol objects order = sortReadingOrder tol objects := by
  by_cases he : objects.isEmpty
  · simp [sort, sortReadingOrder, he]
  · simp [sort, sortReadingOrder, he, h1, h2, h3]

open Sorter in
/-- Witness for C9 at a concrete unrecognized mode string. -/
theorem C9_witness :
    sort 30 [oy0] "reading_order" = sortReadingOrder 30 [oy0] :=
  C9_unrecognized_order_falls_back_to_reading_order 30 [oy0] "reading_order"
    (by decide) (by decide) (by decide)

open Sorter in
/-- C10: for every order mode the sorter's output is a permutation of its
input — nothing is added, dropped or modified by sorting. -/
theorem C10_sort_output_is_permutation
    (tol : ℚ) (objects : List SObj) (order : String) :
    (sort tol objects order).Perm objects :=
  sort_perm tol objects order

/-! ## Detector: merge-loop invariants -/

namespace Detector

theorem rescaleBC_data (bc : BC) : (rescaleBC bc).barcode_data = bc.barcode_data := rfl

theorem mergeVariantUpscaled_eq :
    ∀ (l : List BC) (st : List BC × List String),
      mergeVariantUpscaled l st = mergeVariant (l.map rescaleBC) st
  | [], st => rfl
  | bc :: rest, (out, seen) => by
    simp only [List.map_cons, mergeVariantUpscaled, mergeVariant, rescaleBC_data]
    by_cases h : bc.barcode_data ∈ seen
    · rw [if_pos h, if_pos h, mergeVariantUpscaled_eq rest (out, seen)]
    · rw [if_neg h, if_neg h, mergeVariantUpscaled_eq rest (out ++ [rescaleBC bc], bc.barcode_data :: seen)]

/-- The merge-loop invariant: the seen set is exactly the output's payload
set, every already-processed detection's payload is seen, the output has
pairwise distinct payloads, and for every payload the output holds exactly
the first processed detection carrying it. -/
theorem mergeVariant_inv :
    ∀ (l processed out : List BC) (seen : List String),
      (∀ s, s ∈ seen ↔ s ∈ out.map BC.barcode_data) →
      (∀ bc ∈ processed, bc.barcode_data ∈ seen) →
      (out.map BC.barcode_data).Nodup →
      (∀ p, out.filter (fun bc => decide (bc.barcode_data = p)) =
        (processed.filter fun bc => decide (bc.barcode_data = p)).take 1) →
      (∀ s, s ∈ (mergeVariant l (out, seen)).2 ↔
          s ∈ (mergeVariant l (out, seen)).1.map BC.barcode_data) ∧
        (∀ bc ∈ processed ++ l, bc.barcode_data ∈ (mergeVariant l (out, seen)).2) ∧
        ((mergeVariant l (out, seen)).1.map BC.barcode_data).Nodup ∧
        ∀ p, (mergeVariant l (out, seen)).1.filter (fun bc => decide (bc.barcode_data = p)) =
          ((processed ++ l).filter fun bc => decide (bc.barcode_data = p)).take 1 := by
  intro l
  induction l with
  | nil =>
    intro processed out seen hseen hproc hnodup hfilter
    simp only [mergeVariant, List.append_nil]
    exact ⟨hseen, hproc, hnodup, hfilter⟩
  | cons bc rest ih =>
    intro processed out seen hseen hproc hnodup hfilter
    rw [mergeVariant]
    by_cases hmem : bc.barcode_data ∈ seen
    · rw [if_pos hmem]
      have hfilter' : ∀ p, out.filter (fun b => decide (b.barcode_data = p)) =
          ((processed ++ [bc]).filter fun b => decide (b.barcode_data = p)).take 1 := by
        intro p
        rw [List.filter_append]
        by_cases hp : bc.barcode_data = p
        · have hpseen : p ∈ seen := hp ▸ hmem
          have hpout : p ∈ out.map BC.barcode_data := (hseen p).mp hpseen
          have houtne : out.filter (fun b => decide (b.barcode_data = p)) ≠ [] := by
            rcases List.mem_map.mp hpout with ⟨b, hb, hbp⟩
            intro h0
            exact absurd (List.mem_filter.mpr ⟨hb, by simp [hbp]⟩) (h0 ▸ List.not_mem_nil b)
          have hprocne : processed.filter (fun b => decide (b.barcode_data = p)) ≠ [] := by
            intro h0
            rw [hfilter p, h0] at houtne
            exact houtne rfl
          rw [List.take_append_of_le_length, ← hfilter p]
          exact Nat.one_le_iff_ne_zero.mpr fun h0 =>
            hprocne (List.eq_nil_of_length_eq_zero h0)
        · have : List.filter (fun b => decide (b.barcode_data = p)) [bc] = [] := by
            simp [hp]
          rw [this, List.append_nil]
          exact hfilter p
      have := ih (processed ++ [bc]) out seen hseen
        (by
          intro b hb
          rcases List.mem_append.mp hb with hb | hb
          · exact hproc b hb
          · rcases List.mem_singleton.mp hb with rfl
            exact hmem)
        hnodup hfilter'
      rwa [List.append_assoc, List.singleton_append] at this
    · rw [if_neg hmem]
      have hnotout : bc.barcode_data ∉ out.map BC.barcode_data :=
        fun h => hmem ((hseen _).mpr h)
      have hseen' : ∀ s, s ∈ bc.barcode_data :: seen ↔
          s ∈ (out ++ [bc]).map BC.barcode_data := by
        intro s
        rw [List.map_append, List.mem_append, List.mem_cons, hseen s]
        simp [or_comm]
      have hproc' : ∀ b ∈ processed ++ [bc], b.barcode_data ∈ bc.barcode_data :: seen := by
        intro b hb
        rcases List.mem_append.mp hb with hb | hb
        · exact List.mem_cons_of_mem _ (hproc b hb)
        · rcases List.mem_singleton.mp hb with rfl
          exact List.mem_cons_self _ _
      have hnodup' : ((out ++ [bc]).map BC.barcode_data).Nodup := by
        rw [List.map_append]
        exact hnodup.append (List.nodup_singleton _)
          (List.disjoint_singleton.mpr (by simpa using hnotout))
      have hfilter' : ∀ p, (out ++ [bc]).filter (fun b => decide (b.barcode_data = p)) =
          ((processed ++ [bc]).filter fun b => decide (b.barcode_data = p)).take 1 := by
        intro p
        rw [List.filter_append, List.filter_append]
        by_cases hp : bc.barcode_data = p
        · have hpnotseen : p ∉ seen := hp ▸ hmem
          have houtnil : out.filter (fun b => decide (b.barcode_data = p)) = [] := by
            rw [List.filter_eq_nil_iff]
            intro b hb hbp
            exact hpnotseen ((hseen p).mpr (List.mem_map.mpr ⟨b, hb, by simpa using hbp⟩))
          have hprocnil : processed.filter (fun b => decide (b.barcode_data = p)) = [] := by
            rw [List.filter_eq_nil_iff]
            intro b hb hbp
            apply hpnotseen
            have := hproc b hb
            rwa [show b.barcode_data = p by simpa using hbp] at this
          rw [houtnil, hprocnil]
          simp [hp]
        · have hnil : List.filter (fun b => decide (b.barcode_data = p)) [bc] = [] := by
            simp [hp]
          rw [hnil, List.append_nil, List.append_nil]
          exact hfilter p
      have := ih (processed ++ [bc]) (out ++ [bc]) (bc.barcode_data :: seen)
        hseen' hproc' hnodup' hfilter'
      rwa [List.append_assoc, List.singleton_append] at this

end Detector

open Detector in
/-- C2: ensemble detection with enhancement never reports two detections
with the same payload: the merged output's payloads are pairwise distinct,
and for every payload the output holds exactly the first detection carrying
it in variant order (so when two variants produce the same payload, exactly
one — the first seen — survives). -/
theorem C2_enhancement_merge_dedup
    (r1 r2 r3 r4 r5 r6 r7 : List BC) (height width : ℕ) (r8 : List BC) :
    ((decodeWithEnhancement r1 r2 r3 r4 r5 r6 r7 height width r8).map BC.barcode_data).Nodup ∧
      (∀ p : String,
        (decodeWithEnhancement r1 r2 r3 r4 r5 r6 r7 height width r8).filter
            (fun bc => decide (bc.barcode_data = p)) =
          ((allVariantDetections r1 r2 r3 r4 r5 r6 r7 height width r8).filter
            fun bc => decide (bc.barcode_data = p)).take 1) ∧
      ∀ p : String,
        p ∈ (allVariantDetections r1 r2 r3 r4 r5 r6 r7 height width r8).map BC.barcode_data →
        ((decodeWithEnhancement r1 r2 r3 r4 r5 r6 r7 height width r8).filter
            fun bc => decide (bc.barcode_data = p)).length = 1 := by
  have h1 := mergeVariant_inv r1 [] [] [] (by simp) (by simp) (by simp) (by simp)
  have h2 := mergeVariant_inv r2 ([] ++ r1) _ _ h1.1 h1.2.1 h1.2.2.1 h1.2.2.2
  have h3 := mergeVariant_inv r3 (([] ++ r1) ++ r2) _ _ h2.1 h2.2.1 h2.2.2.1 h2.2.2.2
  have h4 := mergeVariant_inv r4 ((([] ++ r1) ++ r2) ++ r3) _ _ h3.1 h3.2.1 h3.2.2.1 h3.2.2.2
  have h5 := mergeVariant_inv r5 (((([] ++ r1) ++ r2) ++ r3) ++ r4) _ _
    h4.1 h4.2.1 h4.2.2.1 h4.2.2.2
  have h6 := mergeVariant_inv r6 ((((([] ++ r1) ++ r2) ++ r3) ++ r4) ++ r5) _ _
    h5.1 h5.2.1 h5.2.2.1 h5.2.2.2
  have h7 := mergeVariant_inv r7 (((((([] ++ r1) ++ r2) ++ r3) ++ r4) ++ r5) ++ r6) _ _
    h6.1 h6.2.1 h6.2.2.1 h6.2.2.2
  by_cases hc : max height width < 1500
  · have h8 := mergeVariant_inv (r8.map rescaleBC)
      ((((((([] ++ r1) ++ r2) ++ r3) ++ r4) ++ r5) ++ r6) ++ r7) _ _
      h7.1 h7.2.1 h7.2.2.1 h7.2.2.2
    have hout : decodeWithEnhancement r1 r2 r3 r4 r5 r6 r7 height width r8 =
        (mergeVariant (r8.map rescaleBC)
          (mergeVariant r7 (mergeVariant r6 (mergeVariant r5 (mergeVariant r4
            (mergeVariant r3 (mergeVariant r2 (mergeVariant r1 ([], []))))))))).1 := by
      unfold decodeWithEnhancement
      rw [if_pos hc, mergeVariantUpscaled_eq]
    have hall : allVariantDetections r1 r2 r3 r4 r5 r6 r7 height width r8 =
        ((((((([] ++ r1) ++ r2) ++ r3) ++ r4) ++ r5) ++ r6) ++ r7) ++ r8.map rescaleBC := by
      unfold allVariantDetections
      rw [if_pos hc]
      simp [List.append_assoc]
    rw [hout, hall]
    refine ⟨h8.2.2.1, h8.2.2.2, ?_⟩
    intro p hp
    rw [h8.2.2.2 p]
    rcases List.mem_map.mp hp with ⟨b, hb, hbp⟩
    have hbf : b ∈ List.filter (fun bc => decide (bc.barcode_data = p))
        (((((((([] ++ r1) ++ r2) ++ r3) ++ r4) ++ r5) ++ r6) ++ r7) ++ r8.map rescaleBC) :=
      List.mem_filter.mpr ⟨hb, by simp [hbp]⟩
    rw [List.length_take]
    have : 0 < (List.filter (fun bc => decide (bc.barcode_data = p))
        (((((((([] ++ r1) ++ r2) ++ r3) ++ r4) ++ r5) ++ r6) ++ r7) ++ r8.map rescaleBC)).length :=
      List.length_pos.mpr fun h0 => absurd (h0 ▸ hbf) (List.not_mem_nil b)
    omega
  · have hout : decodeWithEnhancement r1 r2 r3 r4 r5 r6 r7 height width r8 =
        (mergeVariant r7 (mergeVariant r6 (mergeVariant r5 (mergeVariant r4
          (mergeVariant r3 (mergeVariant r2 (mergeVariant r1 ([], [])))))))).1 := by
      unfold decodeWithEnhancement
      rw [if_neg hc]
    have hall : allVariantDetections r1 r2 r3 r4 r5 r6 r7 height width r8 =
        (((((([] ++ r1) ++ r2) ++ r3) ++ r4) ++ r5) ++ r6) ++ r7 := by
      unfold allVariantDetections
      rw [if_neg hc]
      simp [List.append_assoc]
    rw [hout, hall]
    refine ⟨h7.2.2.1, h7.2.2.2, ?_⟩
    intro p hp
    rw [h7.2.2.2 p]
    rcases List.mem_map.mp hp with ⟨b, hb, hbp⟩
    have hbf : b ∈ List.filter (fun bc => decide (bc.barcode_data = p))
        ((((((([] ++ r1) ++ r2) ++ r3) ++ r4) ++ r5) ++ r6) ++ r7) :=
      List.mem_filter.mpr ⟨hb, by simp [hbp]⟩
    rw [List.length_take]
    have : 0 < (List.filter (fun bc => decide (bc.barcode_data = p))
        ((((((([] ++ r1) ++ r2) ++ r3) ++ r4) ++ r5) ++ r6) ++ r7)).length :=
      List.length_pos.mpr fun h0 => absurd (h0 ▸ hbf) (List.not_mem_nil b)
    omega

/-! ## Association analyzer: scan and loop lemmas -/

namespace Assoc

/-- The score reads the fragment only through its position. -/
theorem calcScore_congr (cfg : Config) (b : Barcode) {t t' : TextRegion}
    (h : t.position = t'.position) : calcScore cfg b t = calcScore cfg b t' := by
  unfold calcScore
  rw [h]

theorem mkEntry_text (cfg : Config) (b : Barcode) (tr : TextRegion) :
    (mkEntry cfg b tr).text = tr.text := rfl

theorem mkEntry_position (cfg : Config) (b : Barcode) (tr : TextRegion) :
    (mkEntry cfg b tr).position = tr.position := rfl

theorem mkEntry_relation_strong {cfg : Config} {b : Barcode} {tr : TextRegion} :
    (mkEntry cfg b tr).relation_type = RelType.strong ↔
      cfg.strong_threshold ≤ calcScore cfg b tr := by
  unfold mkEntry
  by_cases h : cfg.strong_threshold ≤ calcScore cfg b tr
  · simp [h]
  · simp [h]

theorem scanTexts_used_subset (cfg : Config) (b : Barcode) :
    ∀ (l : List (ℕ × TextRegion)) (used : Finset ℕ),
      used ⊆ (scanTexts cfg b l used).2 := by
  intro l
  induction l with
  | nil => intro used; rw [scanTexts]
  | cons head rest ih =>
    obtain ⟨idx, tr⟩ := head
    intro used
    rw [scanTexts]
    by_cases h1 : idx ∈ used
    · rw [if_pos h1]; exact ih used
    · rw [if_neg h1]
      by_cases h2 : cfg.weak_threshold ≤ calcScore cfg b tr
      · rw [if_pos h2]
        by_cases h3 : cfg.strong_threshold ≤ calcScore cfg b tr
        · simp only [if_pos h3]
          exact (Finset.subset_insert idx used).trans (ih (insert idx used))
        · simp only [if_neg h3]
          exact ih used
      · rw [if_neg h2]
        exact ih used

theorem scanTexts_mem_used (cfg : Config) (b : Barcode) :
    ∀ (l : List (ℕ × TextRegion)) (used : Finset ℕ) (j : ℕ),
      j ∈ (scanTexts cfg b l used).2 →
      j ∈ used ∨ ∃ tr, (j, tr) ∈ l ∧
        cfg.weak_threshold ≤ calcScore cfg b tr ∧
        cfg.strong_threshold ≤ calcScore cfg b tr ∧
        mkEntry cfg b tr ∈ (scanTexts cfg b l used).1 := by
  intro l
  induction l with
  | nil =>
    intro used j hj
    rw [scanTexts] at hj
    exact Or.inl hj
  | cons head rest ih =>
    obtain ⟨idx, tr⟩ := head
    intro used j hj
    rw [scanTexts] at hj ⊢
    by_cases h1 : idx ∈ used
    · rw [if_pos h1] at hj ⊢
      rcases ih used j hj with h | ⟨tr', hmem, hw, hs, he⟩
      · exact Or.inl h
      · exact Or.inr ⟨tr', List.mem_cons_of_mem _ hmem, hw, hs, he⟩
    · rw [if_neg h1] at hj ⊢
      by_cases h2 : cfg.weak_threshold ≤ calcScore cfg b tr
      · rw [if_pos h2] at hj ⊢
        by_cases h3 : cfg.strong_threshold ≤ calcScore cfg b tr
        · simp only [if_pos h3] at hj ⊢
          rcases ih (insert idx used) j hj with h | ⟨tr', hmem, hw, hs, he⟩
          · rcases Finset.mem_insert.mp h with rfl | h
            · exact Or.inr ⟨tr, List.mem_cons_self _ _, h2, h3, List.mem_cons_self _ _⟩
            · exact Or.inl h
          · exact Or.inr ⟨tr', List.mem_cons_of_mem _ hmem, hw, hs,
              List.mem_cons_of_mem _ he⟩
        · simp only [if_neg h3] at hj ⊢
          rcases ih used j hj with h | ⟨tr', hmem, hw, hs, he⟩
          · exact Or.inl h
          · exact Or.inr ⟨tr', List.mem_cons_of_mem _ hmem, hw, hs,
              List.mem_cons_of_mem _ he⟩
      · rw [if_neg h2] at hj ⊢
        rcases ih used j hj with h | ⟨tr', hmem, hw, hs, he⟩
        · exact Or.inl h
        · exact Or.inr ⟨tr', List.mem_cons_of_mem _ hmem, hw, hs, he⟩

theorem scanTexts_entry_source (cfg : Config) (b : Barcode) :
    ∀ (l : List (ℕ × TextRegion)) (used : Finset ℕ) (e : Entry),
      e ∈ (scanTexts cfg b l used).1 →
      ∃ idx tr, (idx, tr) ∈ l ∧ idx ∉ used ∧
        cfg.weak_threshold ≤ calcScore cfg b tr ∧ e = mkEntry cfg b tr := by
  intro l
  induction l with
  | nil =>
    intro used e he
    rw [scanTexts] at he
    cases he
  | cons head rest ih =>
    obtain ⟨idx, tr⟩ := head
    intro used e he
    rw [scanTexts] at he
    by_cases h1 : idx ∈ used
    · rw [if_pos h1] at he
      obtain ⟨i, t, hm, hn, hw, heq⟩ := ih used e he
      exact ⟨i, t, List.mem_cons_of_mem _ hm, hn, hw, heq⟩
    · rw [if_neg h1] at he
      by_cases h2 : cfg.weak_threshold ≤ calcScore cfg b tr
      · rw [if_pos h2] at he
        rcases List.mem_cons.mp he with rfl | he
        · exact ⟨idx, tr, List.mem_cons_self _ _, h1, h2, rfl⟩
        · obtain ⟨i, t, hm, hn, hw, heq⟩ := ih _ e he
          refine ⟨i, t, List.mem_cons_of_mem _ hm, fun hin => hn ?_, hw, heq⟩
          split
          · exact Finset.mem_insert_of_mem hin
          · exact hin
      · rw [if_neg h2] at he
        obtain ⟨i, t, hm, hn, hw, heq⟩ := ih used e he
        exact ⟨i, t, List.mem_cons_of_mem _ hm, hn, hw, heq⟩

theorem scanTexts_consumes (cfg : Config) (b : Barcode) :
    ∀ (l : List (ℕ × TextRegion)) (used : Finset ℕ) (j : ℕ) (tr : TextRegion),
      (j, tr) ∈ l → cfg.weak_threshold ≤ calcScore cfg b tr →
      cfg.strong_threshold ≤ calcScore cfg b tr →
      j ∈ (scanTexts cfg b l used).2 := by
  intro l
  induction l with
  | nil =>
    intro used j tr hm
    cases hm
  | cons head rest ih =>
    obtain ⟨idx, tr₀⟩ := head
    intro used j tr hm hw hs
    rw [scanTexts]
    rcases List.mem_cons.mp hm with heq | hm
    · obtain ⟨rfl, rfl⟩ := Prod.mk.injEq _ _ _ _ ▸ heq
      by_cases h1 : j ∈ used
      · rw [if_pos h1]
        exact scanTexts_used_subset cfg b rest used h1
      · rw [if_neg h1, if_pos hw]
        simp only [if_pos hs]
        exact scanTexts_used_subset cfg b rest (insert j used) (Finset.mem_insert_self j used)
    · by_cases h1 : idx ∈ used
      · rw [if_pos h1]
        exact ih used j tr hm hw hs
      · rw [if_neg h1]
        by_cases h2 : cfg.weak_threshold ≤ calcScore cfg b tr₀
        · rw [if_pos h2]
          by_cases h3 : cfg.strong_threshold ≤ calcScore cfg b tr₀
          · simp only [if_pos h3]
            exact ih (insert idx used) j tr hm hw hs
          · simp only [if_neg h3]
            exact ih used j tr hm hw hs
        · rw [if_neg h2]
          exact ih used j tr hm hw hs

/-- A strong entry consumes every fragment occurrence sharing its position
within the same barcode's scan. -/
theorem scanTexts_strong_consumes_twins (cfg : Config) (b : Barcode)
    (l : List (ℕ × TextRegion)) (used : Finset ℕ) (e : Entry)
    (he : e ∈ (scanTexts cfg b l used).1) (hstrong : e.relation_type = RelType.strong)
    (j : ℕ) (tr : TextRegion) (hm : (j, tr) ∈ l) (hpos : tr.position = e.position) :
    j ∈ (scanTexts cfg b l used).2 := by
  obtain ⟨i, t, _, _, hw, rfl⟩ := scanTexts_entry_source cfg b l used e he
  have hs : cfg.strong_threshold ≤ calcScore cfg b t := mkEntry_relation_strong.mp hstrong
  have hposeq : tr.position = t.position := hpos
  have hscore : calcScore cfg b tr = calcScore cfg b t := calcScore_congr cfg b hposeq
  exact scanTexts_consumes cfg b l used j tr hm (hscore ▸ hw) (hscore ▸ hs)

theorem assocLoop_used_subset (cfg : Config) (pairs : List (ℕ × TextRegion)) :
    ∀ (bs : List Barcode) (used : Finset ℕ),
      used ⊆ (assocLoop cfg pairs bs used).2 := by
  intro bs
  induction bs with
  | nil => intro used; rw [assocLoop]
  | cons b bs ih =>
    intro used
    rw [assocLoop]
    exact (scanTexts_used_subset cfg b pairs used).trans (ih _)

theorem sortByScoreDesc_mem {es : List Entry} {e : Entry} :
    e ∈ sortByScoreDesc es ↔ e ∈ es :=
  (List.perm_insertionSort scoreGe es).mem_iff

theorem assocLoop_entry_source (cfg : Config) (pairs : List (ℕ × TextRegion)) :
    ∀ (bs : List Barcode) (used : Finset ℕ) (r : AResult),
      r ∈ (assocLoop cfg pairs bs used).1 →
      ∀ e ∈ r.related_text,
        ∃ idx tr, (idx, tr) ∈ pairs ∧ idx ∉ used ∧
          cfg.weak_threshold ≤ calcScore cfg r.barcode tr ∧ e = mkEntry cfg r.barcode tr := by
  intro bs
  induction bs with
  | nil =>
    intro used r hr
    rw [assocLoop] at hr
    cases hr
  | cons b bs ih =>
    intro used r hr
    rw [assocLoop] at hr
    rcases List.mem_cons.mp hr with rfl | hr
    · intro e he
      have he' : e ∈ (scanTexts cfg b pairs used).1 := sortByScoreDesc_mem.mp he
      exact scanTexts_entry_source cfg b pairs used e he'
    · intro e he
      obtain ⟨idx, tr, hm, hn, hw, heq⟩ := ih _ r hr e he
      exact ⟨idx, tr, hm, fun hin => hn (scanTexts_used_subset cfg b pairs used hin), hw, heq⟩

/-- Once a fragment position is recorded strongly by any processed barcode,
every occurrence of that position is in the final used-index set. -/
theorem assocLoop_strong_consumed (cfg : Config) (pairs : List (ℕ × TextRegion)) :
    ∀ (bs : List Barcode) (used : Finset ℕ) (r : AResult),
      r ∈ (assocLoop cfg pairs bs used).1 →
      ∀ e ∈ r.related_text, e.relation_type = RelType.strong →
      ∀ (j : ℕ) (tr : TextRegion), (j, tr) ∈ pairs → tr.position = e.position →
        j ∈ (assocLoop cfg pairs bs used).2 := by
  intro bs
  induction bs with
  | nil =>
    intro used r hr
    rw [assocLoop] at hr
    cases hr
  | cons b bs ih =>
    intro used r hr e he hstrong j tr hm hpos
    rw [assocLoop] at hr ⊢
    rcases List.mem_cons.mp hr with rfl | hr
    · have he' : e ∈ (scanTexts cfg b pairs used).1 := sortByScoreDesc_mem.mp he
      have hj := scanTexts_strong_consumes_twins cfg b pairs used e he' hstrong j tr hm hpos
      exact assocLoop_used_subset cfg pairs bs _ hj
    · exact ih _ r hr e he hstrong j tr hm hpos

/-- Every index in the final used set traces back to a recorded strong
entry whose text and position are the fragment's at that index. -/
theorem assocLoop_mem_used (cfg : Config) (pairs : List (ℕ × TextRegion)) :
    ∀ (bs : List Barcode) (used : Finset ℕ) (j : ℕ),
      j ∈ (assocLoop cfg pairs bs used).2 →
      j ∈ used ∨ ∃ r ∈ (assocLoop cfg pairs bs used).1, ∃ e ∈ r.related_text,
        e.relation_type = RelType.strong ∧ ∃ tr, (j, tr) ∈ pairs ∧
          e.text = tr.text ∧ e.position = tr.position := by
  intro bs
  induction bs with
  | nil =>
    intro used j hj
    rw [assocLoop] at hj
    exact Or.inl hj
  | cons b bs ih =>
    intro used j hj
    rw [assocLoop] at hj ⊢
    rcases ih _ j hj with h | ⟨r, hr, e, he, hstrong, tr, hm, htext, hpos⟩
    · rcases scanTexts_mem_used cfg b pairs used j h with h' | ⟨tr, hm, hw, hs, hentry⟩
      · exact Or.inl h'
      · refine Or.inr ⟨_, List.mem_cons_self _ _, mkEntry cfg b tr, ?_, ?_, tr, hm, rfl, rfl⟩
        · exact sortByScoreDesc_mem.mpr hentry
        · exact mkEntry_relation_strong.mpr hs
    · exact Or.inr ⟨r, List.mem_cons_of_mem _ hr, e, he, hstrong, tr, hm, htext, hpos⟩

theorem assocLoop_pairwise (cfg : Config) (pairs : List (ℕ × TextRegion)) :
    ∀ (bs : List Barcode) (used : Finset ℕ),
      ((assocLoop cfg pairs bs used).1).Pairwise fun r₁ r₂ =>
        ∀ e₁ ∈ r₁.related_text, ∀ e₂ ∈ r₂.related_text,
          e₁.relation_type = RelType.strong → e₂.relation_type = RelType.strong →
          ¬(e₁.text = e₂.text ∧ e₁.position = e₂.position) := by
  intro bs
  induction bs with
  | nil =>
    intro used
    rw [assocLoop]
    exact List.Pairwise.nil
  | cons b bs ih =>
    intro used
    rw [assocLoop]
    refine List.Pairwise.cons ?_ (ih _)
    intro r' hr' e₁ he₁ e₂ he₂ hs₁ hs₂ ⟨_, hpos⟩
    obtain ⟨idx₂, tr₂, hm₂, hn₂, _, heq₂⟩ :=
      assocLoop_entry_source cfg pairs bs _ r' hr' e₂ he₂
    have hpos₂ : tr₂.position = e₁.position := by
      rw [hpos, heq₂, mkEntry_position]
    have he₁' : e₁ ∈ (scanTexts cfg b pairs used).1 := sortByScoreDesc_mem.mp he₁
    exact hn₂ (scanTexts_strong_consumes_twins cfg b pairs used e₁ he₁' hs₁ idx₂ tr₂ hm₂ hpos₂)

theorem mem_enum_of_mem {ts : List TextRegion} {tr : TextRegion} (h : tr ∈ ts) :
    ∃ i : ℕ, (i, tr) ∈ ts.enum := by
  obtain ⟨i, hi, hget⟩ := List.mem_iff_getElem.mp h
  exact ⟨i, List.mem_enum_iff_getElem?.mpr (by rw [List.getElem?_eq_getElem hi, hget])⟩

theorem mem_of_mem_enum {ts : List TextRegion} {i : ℕ} {tr : TextRegion}
    (h : (i, tr) ∈ ts.enum) : tr ∈ ts := by
  have hg := List.mem_enum_iff_getElem?.mp h
  obtain ⟨hlt, hget⟩ := List.getElem?_eq_some.mp hg
  exact List.mem_iff_getElem.mpr ⟨i, hlt, hget⟩

theorem enum_functional {ts : List TextRegion} {i : ℕ} {tr tr' : TextRegion}
    (h : (i, tr) ∈ ts.enum) (h' : (i, tr') ∈ ts.enum) : tr = tr' := by
  have h1 := List.mem_enum_iff_getElem?.mp h
  have h2 := List.mem_enum_iff_getElem?.mp h'
  rw [h1] at h2
  exact Option.some.injEq _ _ ▸ h2

end Assoc

open Assoc in
/-- C1: strong exclusivity — across any run of the association scorer, no
text fragment (same text and position) is recorded as a `strong`
association under two different barcodes: a strong match removes the
fragment (and every equal-position occurrence of it) from the candidate
pool of all subsequent barcodes. -/
theorem C1_strong_association_exclusive (cfg : Config) (bs : List Barcode)
    (ts : List TextRegion) :
    ((associate cfg bs ts).1).Pairwise fun r₁ r₂ =>
      ∀ e₁ ∈ r₁.related_text, ∀ e₂ ∈ r₂.related_text,
        e₁.relation_type = RelType.strong → e₂.relation_type = RelType.strong →
        ¬(e₁.text = e₂.text ∧ e₁.position = e₂.position) :=
  assocLoop_pairwise cfg ts.enum bs ∅

open Assoc in
/-- C6: the independent-fragments output holds exactly the input fragments
never strong-consumed by any barcode: a fragment (identified by text and
position) appears among the independent fragments iff it occurs in the
input and no barcode records a strong association with it — weak
associations do not remove a fragment from independence, so a fragment can
be both a weak association and independent. -/
theorem C6_independent_iff_never_strong_consumed (cfg : Config) (bs : List Barcode)
    (ts : List TextRegion) (t : String) (p : Pos) :
    (∃ ie ∈ (associate cfg bs ts).2, ie.text = t ∧ ie.position = p) ↔
      ((∃ tr ∈ ts, tr.text = t ∧ tr.position = p) ∧
        ¬∃ r ∈ (associate cfg bs ts).1, ∃ e ∈ r.related_text,
          e.relation_type = RelType.strong ∧ e.text = t ∧ e.position = p) := by
  unfold associate
  constructor
  · rintro ⟨ie, hie, htext, hpos⟩
    rcases List.mem_map.mp hie with ⟨⟨idx, tr⟩, hfilt, hmk⟩
    have hmem : (idx, tr) ∈ ts.enum := (List.mem_filter.mp hfilt).1
    have hnotused : idx ∉ (assocLoop cfg ts.enum bs ∅).2 := by
      have := (List.mem_filter.mp hfilt).2
      simpa using this
    have htr_text : tr.text = t := by rw [← htext, ← hmk]
    have htr_pos : tr.position = p := by rw [← hpos, ← hmk]
    refine ⟨⟨tr, mem_of_mem_enum hmem, htr_text, htr_pos⟩, ?_⟩
    rintro ⟨r, hr, e, he, hstrong, hetext, hepos⟩
    apply hnotused
    exact assocLoop_strong_consumed cfg ts.enum bs ∅ r hr e he hstrong idx tr hmem
      (by rw [htr_pos, hepos])
  · rintro ⟨⟨tr, htr, htext, hpos⟩, hnostrong⟩
    obtain ⟨idx, hmem⟩ := mem_enum_of_mem htr
    have hnotused : idx ∉ (assocLoop cfg ts.enum bs ∅).2 := by
      intro hused
      rcases assocLoop_mem_used cfg ts.enum bs ∅ idx hused with h | h
      · exact absurd h (Finset.not_mem_empty idx)
      · obtain ⟨r, hr, e, he, hstrong, tr', hm', htext', hpos'⟩ := h
        have htreq : tr' = tr := enum_functional hm' hmem
        subst htreq
        exact hnostrong ⟨r, hr, e, he, hstrong, by rw [htext', htext], by rw [hpos', hpos]⟩
    refine ⟨⟨tr.text, tr.position⟩, ?_, htext, hpos⟩
    apply List.mem_map.mpr
    refine ⟨(idx, tr), ?_, rfl⟩
    exact List.mem_filter.mpr ⟨hmem, by simpa using hnotused⟩

/-! ## Association analyzer: concrete evaluations for the radius cutoff -/

namespace Assoc

theorem distance_eq {p q : Pos} {d : ℝ} (hd : 0 ≤ d)
    (h : (p.x + p.width / 2 - (q.x + q.width / 2)) ^ 2 +
        (p.y + p.height / 2 - (q.y + q.height / 2)) ^ 2 = d ^ 2) :
    distance p q = d := by
  have hrw : distance p q = Real.sqrt ((p.x + p.width / 2 - (q.x + q.width / 2)) ^ 2 +
      (p.y + p.height / 2 - (q.y + q.height / 2)) ^ 2) := rfl
  rw [hrw, h]
  exact Real.sqrt_sq hd

theorem dist_bUnit_tFar : distance bUnit.position tFar.position = 2 :=
  distance_eq (by norm_num) (by norm_num [bUnit, tFar])

theorem dist_bUnit_tFarther : distance bUnit.position tFarther.position = 3 :=
  distance_eq (by norm_num) (by norm_num [bUnit, tFarther])

theorem dist_bWide_tNear : distance bWide.position tNear.position = 90 :=
  distance_eq (by norm_num) (by norm_num [bWide, tNear])

theorem score_bUnit_tFar_zero : calcScore cfgZeroWeak bUnit tFar = 0 := by
  have hcond : distance bUnit.position tFar.position >
      bUnit.position.width * cfgZeroWeak.max_search_radius_multiplier := by
    rw [dist_bUnit_tFar]
    norm_num [bUnit, cfgZeroWeak]
  unfold calcScore
  rw [if_pos hcond]

theorem dir_bWide_tNear : getDirection bWide.position tNear.position = Dir.right := by
  unfold getDirection center bWide tNear
  norm_num

theorem score_bWide_tNear : calcScore cfgDefault bWide tNear = 11 / 25 := by
  unfold calcScore
  rw [dist_bWide_tNear, dir_bWide_tNear]
  have hnotfar : ¬ ((90 : ℝ) >
      bWide.position.width * cfgDefault.max_search_radius_multiplier) := by
    norm_num [bWide, cfgDefault]
  rw [if_neg hnotfar]
  norm_num [bWide, cfgDefault, Config.dirWeight]

theorem scan_cex_eval : scanTexts cfgZeroWeak bUnit [(0, tFar)] ∅ =
    ([mkEntry cfgZeroWeak bUnit tFar], ∅) := by
  have h0 : (0 : ℕ) ∉ (∅ : Finset ℕ) := Finset.not_mem_empty 0
  have hw : cfgZeroWeak.weak_threshold ≤ calcScore cfgZeroWeak bUnit tFar := by
    rw [score_bUnit_tFar_zero]
    norm_num [cfgZeroWeak]
  have hns : ¬ cfgZeroWeak.strong_threshold ≤ calcScore cfgZeroWeak bUnit tFar := by
    rw [score_bUnit_tFar_zero]
    norm_num [cfgZeroWeak]
  rw [scanTexts, if_neg h0, if_pos hw]
  simp only [if_neg hns]
  rw [scanTexts]

theorem assoc_cex_eval : associate cfgZeroWeak [bUnit] [tFar] =
    ([⟨bUnit, [mkEntry cfgZeroWeak bUnit tFar], true⟩],
      [⟨tFar.text, tFar.position⟩]) := by
  unfold associate
  have henum : ([tFar] : List TextRegion).enum = [(0, tFar)] := rfl
  rw [henum, assocLoop, scan_cex_eval, assocLoop]
  simp [sortByScoreDesc, List.insertionSort]

theorem scan_wit_eval : scanTexts cfgDefault bWide [(0, tNear)] ∅ =
    ([mkEntry cfgDefault bWide tNear], ∅) := by
  have h0 : (0 : ℕ) ∉ (∅ : Finset ℕ) := Finset.not_mem_empty 0
  have hw : cfgDefault.weak_threshold ≤ calcScore cfgDefault bWide tNear := by
    rw [score_bWide_tNear]
    norm_num [cfgDefault]
  have hns : ¬ cfgDefault.strong_threshold ≤ calcScore cfgDefault bWide tNear := by
    rw [score_bWide_tNear]
    norm_num [cfgDefault]
  rw [scanTexts, if_neg h0, if_pos hw]
  simp only [if_neg hns]
  rw [scanTexts]

theorem assoc_wit_eval : associate cfgDefault [bWide] [tNear] =
    ([⟨bWide, [mkEntry cfgDefault bWide tNear], true⟩],
      [⟨tNear.text, tNear.position⟩]) := by
  unfold associate
  have henum : ([tNear] : List TextRegion).enum = [(0, tNear)] := rfl
  rw [henum, assocLoop, scan_wit_eval, assocLoop]
  simp [sortByScoreDesc, List.insertionSort]

end Assoc

open Assoc in
/-- C3 counterexample: with `weakThreshold = 0` a fragment whose distance
from the barcode exceeds `width * radiusMultiplier` still appears in that
barcode's association list (with score 0), because the recording condition
is `score >= weakThreshold`. -/
theorem C3_counterexample :
    distance bUnit.position tFar.position >
        bUnit.position.width * cfgZeroWeak.max_search_radius_multiplier ∧
      ∃ r ∈ (associate cfgZeroWeak [bUnit] [tFar]).1, ∃ e ∈ r.related_text,
        e.position = tFar.position := by
  constructor
  · rw [dist_bUnit_tFar]
    norm_num [bUnit, cfgZeroWeak]
  · rw [assoc_cex_eval]
    exact ⟨_, List.mem_singleton_self _, mkEntry cfgZeroWeak bUnit tFar,
      List.mem_singleton_self _, rfl⟩

open Assoc in
/-- C3 (amended): for every barcode, fragment and configuration, a distance
beyond `width * radiusMultiplier` yields score 0; and provided the weak
threshold is positive (as in the default configuration), every fragment
recorded in a barcode's association list lies within that barcode's search
radius — so an out-of-radius fragment never appears. -/
theorem C3_radius_cutoff_amended (cfg : Config) (b : Barcode) (t : TextRegion)
    (bs : List Barcode) (ts : List TextRegion) (r : AResult) (e : Entry)
    (hfar : distance b.position t.position >
      b.position.width * cfg.max_search_radius_multiplier)
    (hweak : 0 < cfg.weak_threshold)
    (hr : r ∈ (associate cfg bs ts).1)
    (he : e ∈ r.related_text) :
    calcScore cfg b t = 0 ∧
      distance r.barcode.position e.position ≤
        r.barcode.position.width * cfg.max_search_radius_multiplier := by
  constructor
  · unfold calcScore
    rw [if_pos hfar]
  · have hr' : r ∈ (assocLoop cfg ts.enum bs ∅).1 := hr
    obtain ⟨idx, tr, _, _, hw, heq⟩ :=
      assocLoop_entry_source cfg ts.enum bs ∅ r hr' e he
    have hscore_pos : 0 < calcScore cfg r.barcode tr := lt_of_lt_of_le hweak hw
    have hnotfar : ¬ distance r.barcode.position tr.position >
        r.barcode.position.width * cfg.max_search_radius_multiplier := by
      intro hgt
      have hz : calcScore cfg r.barcode tr = 0 := by
        unfold calcScore
        rw [if_pos hgt]
      rw [hz] at hscore_pos
      exact lt_irrefl 0 hscore_pos
    rw [heq, mkEntry_position]
    exact not_lt.mp hnotfar

open Assoc in
/-- Witness for the amended C3 at concrete inputs: `tFarther` is beyond
`bUnit`'s radius and scores 0; the entry `bWide` records for `tNear` lies
within `bWide`'s radius. -/
theorem C3_witness :
    calcScore cfgDefault bUnit tFarther = 0 ∧
      distance
          (AResult.mk bWide [mkEntry cfgDefault bWide tNear] true).barcode.position
          (mkEntry cfgDefault bWide tNear).position ≤
        (AResult.mk bWide [mkEntry cfgDefault bWide tNear] true).barcode.position.width *
          cfgDefault.max_search_radius_multiplier :=
  C3_radius_cutoff_amended cfgDefault bUnit tFarther [bWide] [tNear]
    (AResult.mk bWide [mkEntry cfgDefault bWide tNear] true)
    (mkEntry cfgDefault bWide tNear)
    (by rw [dist_bUnit_tFarther]; norm_num [bUnit, cfgDefault])
    (by norm_num [cfgDefault])
    (by rw [assoc_wit_eval]; exact List.mem_singleton_self _)
    (List.mem_singleton_self _)

/-- C8: every run of `process_image`, whatever the processing mode,
recognition mode and engine outcomes, returns a single result envelope and
never raises: `error` is null exactly when `success` is true, the elapsed
processing time is always stamped, and an internal exception is converted
into `success = false` carrying the message, while a normal completion
keeps `success = true` with the branch's results. -/
theorem C8_process_image_envelope (e : Proc.Engines)
    (mode recognition_mode sort_order : String) (tol : ℚ) (elapsed : ℕ) :
    ((Proc.processImage e mode recognition_mode sort_order tol elapsed).success = true ↔
      (Proc.processImage e mode recognition_mode sort_order tol elapsed).error = none) ∧
      (Proc.processImage e mode recognition_mode sort_order tol elapsed).process_time =
        elapsed ∧
      (∀ msg, Proc.processBody e mode recognition_mode sort_order tol = Except.error msg →
        Proc.processImage e mode recognition_mode sort_order tol elapsed =
          ⟨false, mode, recognition_mode, sort_order, [], elapsed, some msg,
            none, none, none⟩) ∧
      ∀ p, Proc.processBody e mode recognition_mode sort_order tol = Except.ok p →
        Proc.processImage e mode recognition_mode sort_order tol elapsed =
          ⟨true, mode, recognition_mode, sort_order, p.results, elapsed, none,
            p.ai_raw_response, p.structured_fields, p.full_text⟩ := by
  unfold Proc.processImage
  cases hbody : Proc.processBody e mode recognition_mode sort_order tol with
  | ok p => simp
  | error msg => simp

open Sorter in
/-- C7: for every list of objects and every order mode, the sorter is
idempotent — sorting an already-sorted list returns it unchanged, because
the underlying sorts are stable and reading-order row grouping reaches a
fixpoint after one pass. -/
theorem C7_sort_idempotent (tol : ℚ) (objects : List SObj) (order : String) :
    sort tol (sort tol objects order) order = sort tol objects order := by
  by_cases he : objects.isEmpty = true
  · rw [List.isEmpty_iff.mp he]
    rfl
  · have he' : objects.isEmpty = false := Bool.eq_false_iff.mpr he
    have he2 : (sort tol objects order).isEmpty = false := by
      rw [sort_isEmpty]
      exact he'
    have hdispatch : ∀ objs : List SObj, objs.isEmpty = false →
        sort tol objs order =
          (if order = "top_to_bottom" then sortTopToBottom objs
            else if order = "left_to_right" then sortLeftToRight objs
            else if order = "grid_order" then sortGridOrder tol objs
            else sortReadingOrder tol objs) := by
      intro objs h0
      unfold sort
      simp [h0]
    rw [hdispatch (sort tol objects order) he2, hdispatch objects he']
    by_cases h1 : order = "top_to_bottom"
    · simp only [h1, if_pos rfl]
      exact sortTopToBottom_idem objects
    by_cases h2 : order = "left_to_right"
    · simp only [h1, h2, if_neg, if_pos rfl, ite_false, ite_true]
      exact sortLeftToRight_idem objects
    by_cases h3 : order = "grid_order"
    · simp only [h1, h2, h3, ite_false, ite_true]
      exact sortReadingOrder_idem tol objects
    · simp only [h1, h2, h3, ite_false]
      exact sortReadingOrder_idem tol objects

end LabelScan
